import Mathlib

/-!
Verification of the promptflow flow-execution engine specification.

The repository ships three artifacts relevant here: the MSI build workflow
(the version-normalization and latest-version-upload steps are embedded
below from its PowerShell), the package CHANGELOG, and a tutorial notebook.
The flow-execution engine itself (graph model, dependency resolver, node
executor, flow runner, batch scheduler) is described by the specification;
its components are modelled from the spec below, each marked as such.
-/

namespace PromptflowSpec

/-! ## MSI build workflow: version handling (from the workflow source) -/

/-- Splits a character list on the dot character, as PowerShell
`$versionString.Split('.')` does: the result always has at least one
(possibly empty) component. -/
def splitDots : List Char → List (List Char)
  | [] => [[]]
  | c :: cs =>
    match splitDots cs with
    | [] => [[c]]
    | w :: ws => if c = ('.') then [] :: w :: ws else (c :: w) :: ws

/-- The dot-separated components of a version string, as strings. -/
def versionComponents (s : String) : List String :=
  (splitDots s.data).map (fun l => String.mk l)

/-- The FILE_VERSION normalization of the "Build Pyinstaller project" step:
split on dots; with at least four components keep the first four, otherwise
right-pad with zero components (PowerShell appends `@(0) * remaining`,
which stringifies to "0" when joined). -/
def fileVersionArray (s : String) : List String :=
  let a := versionComponents s
  if 4 ≤ a.length then a.take 4
  else a ++ List.replicate (4 - a.length) ("0")

/-- A .NET `System.Version` value as used by the PowerShell `[Version]` cast:
four integer components, missing components represented as -1. -/
structure DotNetVersion where
  major : Int
  minor : Int
  build : Int
  revision : Int
deriving DecidableEq, Repr

/-- Strict comparison of .NET versions: lexicographic on
(major, minor, build, revision), matching `[Version]$a -lt [Version]$b`. -/
def vlt (a b : DotNetVersion) : Prop :=
  a.major < b.major ∨
    (a.major = b.major ∧
      (a.minor < b.minor ∨
        (a.minor = b.minor ∧
          (a.build < b.build ∨
            (a.build = b.build ∧ a.revision < b.revision)))))

instance instDecVlt (a b : DotNetVersion) : Decidable (vlt a b) := by
  unfold vlt
  exact inferInstance

/-- PowerShell `$version -like '1.*'`: the string starts with the two
characters "1.". -/
def likeOneDot (s : String) : Bool :=
  match s.data with
  | c1 :: c2 :: _ => decide (c1 = ('1')) && decide (c2 = ('.'))
  | _ => false

/-- The "Check if version input is valid and upload JSON file" step:
the published version is replaced by the built version exactly when the
built version string matches `1.*` and the built version compares strictly
greater than the currently published one; otherwise the upload is skipped. -/
def uploadStep (builtStr : String) (built : DotNetVersion)
    (published : DotNetVersion) : DotNetVersion :=
  if likeOneDot builtStr = true ∧ vlt published built then built else published

/-- The published version after a sequence of builds, each running the
upload step against the then-current published version. -/
def publishSequence (builds : List (String × DotNetVersion))
    (init : DotNetVersion) : DotNetVersion :=
  builds.foldl (fun pub b => uploadStep b.1 b.2 pub) init

theorem vlt_asymm {a b : DotNetVersion} (h : vlt a b) : ¬ vlt b a := by
  unfold vlt at h ⊢
  rcases a with ⟨a1, a2, a3, a4⟩
  rcases b with ⟨b1, b2, b3, b4⟩
  simp only at h ⊢
  omega

theorem vlt_notlt_trans {a b c : DotNetVersion}
    (h1 : ¬ vlt b a) (h2 : ¬ vlt c b) : ¬ vlt c a := by
  unfold vlt at h1 h2 ⊢
  rcases a with ⟨a1, a2, a3, a4⟩
  rcases b with ⟨b1, b2, b3, b4⟩
  rcases c with ⟨c1, c2, c3, c4⟩
  simp only at h1 h2 ⊢
  omega

theorem uploadStep_no_decrease (s : String) (built current : DotNetVersion) :
    ¬ vlt (uploadStep s built current) current := by
  unfold uploadStep
  split
  · next h => exact vlt_asymm h.2
  · next h =>
    unfold vlt
    rcases current with ⟨a1, a2, a3, a4⟩
    simp only
    omega

theorem publishSequence_no_decrease (builds : List (String × DotNetVersion))
    (init : DotNetVersion) : ¬ vlt (publishSequence builds init) init := by
  induction builds generalizing init with
  | nil =>
    unfold publishSequence
    simp only [List.foldl_nil]
    unfold vlt
    rcases init with ⟨a1, a2, a3, a4⟩
    simp only
    omega
  | cons b bs ih =>
    unfold publishSequence at ih ⊢
    simp only [List.foldl_cons]
    exact vlt_notlt_trans (uploadStep_no_decrease b.1 b.2 init) (ih _)

/-- C9: the MSI build's version normalization always yields exactly four
components; with four or more dot-separated components it keeps the first
four, with fewer it right-pads with zero components. -/
theorem fileVersion_four_components (s : String) :
    (fileVersionArray s).length = 4
    ∧ (4 ≤ (versionComponents s).length →
        fileVersionArray s = (versionComponents s).take 4)
    ∧ ((versionComponents s).length < 4 →
        fileVersionArray s =
          versionComponents s ++
            List.replicate (4 - (versionComponents s).length) ("0")) := by
  refine ⟨?_, ?_, ?_⟩
  · unfold fileVersionArray
    by_cases h : 4 ≤ (versionComponents s).length
    · simp only [if_pos h, List.length_take]
      omega
    · simp only [if_neg h, List.length_append, List.length_replicate]
      omega
  · intro h
    unfold fileVersionArray
    simp [h]
  · intro h
    unfold fileVersionArray
    have h2 : ¬ 4 ≤ (versionComponents s).length := by omega
    simp [h2]

/-- Witness for C9 at concrete version strings with five and with two
components. -/
theorem fileVersion_four_components_witness :
    (fileVersionArray ("1.2.3.4.5") = (versionComponents ("1.2.3.4.5")).take 4)
    ∧ (fileVersionArray ("1.2") =
        versionComponents ("1.2") ++
          List.replicate (4 - (versionComponents ("1.2")).length) ("0")) := by
  refine ⟨?_, ?_⟩
  · exact (fileVersion_four_components ("1.2.3.4.5")).2.1 (by decide)
  · exact (fileVersion_four_components ("1.2")).2.2 (by decide)

/-- C10: latest_version.json is overwritten only when the built version
matches `1.*` and is strictly greater than the published version, and the
published version never decreases, neither in one build nor across any
sequence of builds. -/
theorem latest_version_monotone (s : String) (built current : DotNetVersion)
    (builds : List (String × DotNetVersion)) (init : DotNetVersion) :
    (uploadStep s built current ≠ current →
      likeOneDot s = true ∧ vlt current built)
    ∧ ¬ vlt (uploadStep s built current) current
    ∧ ¬ vlt (publishSequence builds init) init := by
  refine ⟨?_, uploadStep_no_decrease s built current,
    publishSequence_no_decrease builds init⟩
  intro hne
  unfold uploadStep at hne
  by_cases h : likeOneDot s = true ∧ vlt current built
  · exact h
  · simp [h] at hne

/-- Witness for C10 at a concrete build that does overwrite the published
version. -/
theorem latest_version_monotone_witness :
    likeOneDot ("1.2.0") = true ∧
      vlt ⟨1, 0, -1, -1⟩ ⟨1, 2, -1, -1⟩ := by
  exact (latest_version_monotone ("1.2.0") ⟨1, 2, -1, -1⟩ ⟨1, 0, -1, -1⟩
    [] ⟨0, 0, 0, 0⟩).1 (by decide)

/-! ## Graph model and dependency resolver

Modelled from the spec: the Flow Execution Engine's source is not part of
the repository snapshot (only its changelog, a tutorial notebook and the
packaging workflow are), so the Graph Model (spec section 3) and the
Dependency Resolver (spec section 4.1, Kahn's algorithm with ties broken
by declaration order, `CyclicDependencyError` and
`UnresolvedReferenceError`) are modelled from the spec's words. -/

/-- A runtime value flowing between nodes; `vnull` is the `None` the spec
assigns to failed and bypassed nodes. -/
inductive Value
  | vnull
  | vstr (s : String)
  | vnat (n : Nat)
  | vbool (b : Bool)
deriving DecidableEq, Repr

/-- Modelled from the spec: a node input binding is a literal value or a
reference to a flow input or another node's output (spec sections 3 and 9,
the tagged binding variant). A node-output reference carries the
failure-tolerant flag of spec section 4.3. -/
inductive Binding
  | lit (v : Value)
  | flowInput (source : String)
  | nodeOutput (source : String) (tolerant : Bool)
deriving DecidableEq, Repr

/-- Modelled from the spec: an activation condition compares the value of a
referenced binding to an expected value; the node runs only when they are
equal (spec sections 3 and 4.3). -/
structure ActivateCond where
  source : Binding
  expected : Value
deriving DecidableEq, Repr

/-- Modelled from the spec: a flow node with its unique name, named input
bindings, optional activation condition, caching flag and callable version
(the version participates in the cache key, spec section 3). -/
structure Node where
  name : String
  bindings : List (String × Binding)
  activate : Option ActivateCond
  enableCache : Bool
  version : Nat
deriving DecidableEq, Repr

def bindingNodeRef : Binding → Option String
  | .nodeOutput s _ => some s
  | _ => none

def bindingInputRef : Binding → Option String
  | .flowInput s => some s
  | _ => none

def Node.activateSources (n : Node) : List Binding :=
  match n.activate with
  | some c => [c.source]
  | none => []

def Node.allBindings (n : Node) : List Binding :=
  n.bindings.map (fun p => p.2) ++ n.activateSources

/-- The names of the nodes a node references (through input bindings or its
activation condition). -/
def Node.nodeRefs (n : Node) : List String :=
  n.allBindings.filterMap bindingNodeRef

/-- The names of the flow inputs a node references. -/
def Node.inputRefs (n : Node) : List String :=
  n.allBindings.filterMap bindingInputRef

/-- Modelled from the spec: a Flow Graph is a list of nodes (in declaration
order) plus the declared flow-input names (spec section 3). -/
structure FlowGraph where
  nodes : List Node
  inputs : List String

def nodeNames (g : FlowGraph) : List String := g.nodes.map (fun n => n.name)

/-- Boolean list membership for strings. -/
def memb (x : String) : List String → Bool
  | [] => false
  | y :: ys => if y = x then true else memb x ys

/-- The first element of a reference list that is not available in `avail`,
if any. -/
def firstUnmet (avail : List String) : List String → Option String
  | [] => none
  | r :: rs => if memb r avail then firstUnmet avail rs else some r

/-- A node is ready once every node it references has been emitted. -/
def isReady (emitted : List String) (n : Node) : Bool :=
  (firstUnmet emitted n.nodeRefs).isNone

def findNode (r : String) : List Node → Option Node
  | [] => none
  | m :: ms => if m.name = r then some m else findNode r ms

/-- For a node that is not ready, the pending node behind its first unmet
reference. -/
def blockerOf (emitted : List String) (pending : List Node) (n : Node) :
    Option Node :=
  match firstUnmet emitted n.nodeRefs with
  | some r => findNode r pending
  | none => none

/-- Walks blocked-by edges among the stuck pending nodes until a node is
revisited; that node lies on a dependency cycle and is the one named by
`CyclicDependencyError`. -/
def findCycleNode (emitted : List String) (pending : List Node) :
    Nat → List String → Node → String
  | 0, _, cur => cur.name
  | fuel+1, visited, cur =>
    if memb cur.name visited then cur.name
    else
      match blockerOf emitted pending cur with
      | some nxt => findCycleNode emitted pending fuel (visited ++ [cur.name]) nxt
      | none => cur.name

/-- Modelled from the spec: the resolver's two failure modes,
`CyclicDependencyError` naming a node of the cycle and
`UnresolvedReferenceError` naming the dangling reference (spec section 4.1). -/
inductive ResolveError
  | cyclic (nodeName : String)
  | unresolved (ref : String)
deriving DecidableEq, Repr

/-- Modelled from the spec: one Kahn round removes every pending node whose
references are all emitted, appending them in declaration order; if no node
is ready while some are pending, the graph is cyclic (spec section 4.1). -/
def topoAux (fuel : Nat) (pending : List Node) (acc : List String) :
    Except ResolveError (List String) :=
  match fuel, pending with
  | _, [] => .ok acc
  | 0, n :: rest =>
    .error (.cyclic (findCycleNode acc (n :: rest) (rest.length + 2) [] n))
  | fuel+1, n :: rest =>
    let ready := (n :: rest).filter (isReady acc)
    if ready.isEmpty then
      .error (.cyclic (findCycleNode acc (n :: rest) (rest.length + 2) [] n))
    else
      topoAux fuel ((n :: rest).filter (fun m => !(isReady acc m)))
        (acc ++ ready.map (fun m => m.name))

/-- The first dangling reference of the graph, scanning nodes in declaration
order: a node reference that names no node, or a flow-input reference that
names no declared input. -/
def checkRefs (g : FlowGraph) : List Node → Option String
  | [] => none
  | n :: rest =>
    match firstUnmet (nodeNames g) n.nodeRefs with
    | some r => some r
    | none =>
      match firstUnmet g.inputs n.inputRefs with
      | some r => some r
      | none => checkRefs g rest

/-- Modelled from the spec: the Dependency Resolver checks that every
reference resolves, then topologically sorts the nodes with Kahn's
algorithm (spec section 4.1). -/
def resolve (g : FlowGraph) : Except ResolveError (List String) :=
  match checkRefs g g.nodes with
  | some r => .error (.unresolved r)
  | none => topoAux g.nodes.length g.nodes []

/-- The dependency edge relation: `a` references `b`. -/
def stepRel (g : FlowGraph) (a b : String) : Prop :=
  ∃ n, n ∈ g.nodes ∧ n.name = a ∧ b ∈ n.nodeRefs

/-- The graph has a dependency cycle. -/
def hasCycle (g : FlowGraph) : Prop :=
  ∃ v, Relation.TransGen (stepRel g) v v

/-- Every reference of every node resolves to a node or a declared input. -/
def Resolved (g : FlowGraph) : Prop :=
  ∀ n ∈ g.nodes,
    (∀ r ∈ n.nodeRefs, r ∈ nodeNames g) ∧ (∀ r ∈ n.inputRefs, r ∈ g.inputs)

/-- `r` is a dangling reference of the graph. -/
def Dangling (g : FlowGraph) (r : String) : Prop :=
  ∃ n, n ∈ g.nodes ∧
    ((r ∈ n.nodeRefs ∧ r ∉ nodeNames g) ∨ (r ∈ n.inputRefs ∧ r ∉ g.inputs))

/-- Every node appears strictly after all nodes it references: at any
occurrence of a node's name, all its referenced names occur earlier. -/
def RespectsDeps (g : FlowGraph) (order : List String) : Prop :=
  ∀ n ∈ g.nodes, ∀ l1 l2, order = l1 ++ n.name :: l2 → ∀ r ∈ n.nodeRefs, r ∈ l1

/-- A valid resolver output: a permutation of the node names in which every
node appears strictly after all nodes it references. -/
def validOrder (g : FlowGraph) (order : List String) : Prop :=
  order.Perm (nodeNames g) ∧ RespectsDeps g order

/-! ### Basic lemmas about the resolver's helper functions -/

theorem memb_iff (x : String) (l : List String) : memb x l = true ↔ x ∈ l := by
  induction l with
  | nil => simp [memb]
  | cons y ys ih =>
    unfold memb
    by_cases h : y = x
    · simp [h]
    · simp [h, ih]
      intro hx
      exact absurd hx.symm h

theorem firstUnmet_none {avail l} (h : firstUnmet avail l = none) :
    ∀ r ∈ l, r ∈ avail := by
  induction l with
  | nil => simp
  | cons r rs ih =>
    unfold firstUnmet at h
    by_cases hm : memb r avail = true
    · simp [hm] at h
      intro x hx
      rcases List.mem_cons.mp hx with h1 | h1
      · exact h1 ▸ (memb_iff r avail).mp hm
      · exact ih h x h1
    · simp [Bool.of_not_eq_true hm] at h

theorem firstUnmet_some {avail l r} (h : firstUnmet avail l = some r) :
    r ∈ l ∧ r ∉ avail := by
  induction l with
  | nil => simp [firstUnmet] at h
  | cons x xs ih =>
    unfold firstUnmet at h
    by_cases hm : memb x avail = true
    · simp [hm] at h
      rcases ih h with ⟨h1, h2⟩
      exact ⟨List.mem_cons_of_mem x h1, h2⟩
    · simp [Bool.of_not_eq_true hm] at h
      subst h
      refine ⟨List.mem_cons_self x xs, fun hc => hm ?_⟩
      exact (memb_iff x avail).mpr hc

theorem firstUnmet_eq_none {avail l} (h : ∀ r ∈ l, r ∈ avail) :
    firstUnmet avail l = none := by
  induction l with
  | nil => simp [firstUnmet]
  | cons r rs ih =>
    unfold firstUnmet
    have hm : memb r avail = true :=
      (memb_iff r avail).mpr (h r (List.mem_cons_self r rs))
    simp [hm]
    exact ih (fun x hx => h x (List.mem_cons_of_mem r hx))

theorem isReady_iff (emitted : List String) (n : Node) :
    isReady emitted n = true ↔ ∀ r ∈ n.nodeRefs, r ∈ emitted := by
  unfold isReady
  constructor
  · intro h
    cases hfu : firstUnmet emitted n.nodeRefs with
    | none => exact firstUnmet_none hfu
    | some r => simp [hfu] at h
  · intro h
    simp [firstUnmet_eq_none h]

theorem isReady_false {emitted : List String} {n : Node}
    (h : isReady emitted n = false) :
    ∃ r, firstUnmet emitted n.nodeRefs = some r := by
  unfold isReady at h
  cases hfu : firstUnmet emitted n.nodeRefs with
  | none => simp [hfu] at h
  | some r => exact ⟨r, rfl⟩

theorem findNode_some {r : String} {l : List Node} {m : Node}
    (h : findNode r l = some m) : m ∈ l ∧ m.name = r := by
  induction l with
  | nil => simp [findNode] at h
  | cons x xs ih =>
    unfold findNode at h
    by_cases hx : x.name = r
    · simp [hx] at h
      exact ⟨by simp [h], h ▸ hx⟩
    · simp [hx] at h
      rcases ih h with ⟨h1, h2⟩
      exact ⟨List.mem_cons_of_mem x h1, h2⟩

theorem findNode_isSome {r : String} {l : List Node}
    (h : r ∈ l.map (fun m => m.name)) : ∃ m, findNode r l = some m := by
  induction l with
  | nil => simp at h
  | cons x xs ih =>
    unfold findNode
    by_cases hx : x.name = r
    · exact ⟨x, by simp [hx]⟩
    · simp at h
      rcases h with h1 | h1
      · exact absurd h1.symm hx
      · simpa [hx] using ih (List.mem_map.mpr h1)

theorem checkRefs_none {g : FlowGraph} : ∀ {l : List Node},
    checkRefs g l = none →
    ∀ n ∈ l, (∀ r ∈ n.nodeRefs, r ∈ nodeNames g) ∧
      (∀ r ∈ n.inputRefs, r ∈ g.inputs) := by
  intro l
  induction l with
  | nil => simp
  | cons n rest ih =>
    intro h m hm
    unfold checkRefs at h
    cases h1 : firstUnmet (nodeNames g) n.nodeRefs with
    | some r => simp [h1] at h
    | none =>
      cases h2 : firstUnmet g.inputs n.inputRefs with
      | some r => simp [h1, h2] at h
      | none =>
        simp [h1, h2] at h
        rcases List.mem_cons.mp hm with hc | hc
        · subst hc
          exact ⟨firstUnmet_none h1, firstUnmet_none h2⟩
        · exact ih h m hc

theorem checkRefs_some {g : FlowGraph} : ∀ {l : List Node} {r : String},
    checkRefs g l = some r →
    ∃ n, n ∈ l ∧ ((r ∈ n.nodeRefs ∧ r ∉ nodeNames g) ∨
      (r ∈ n.inputRefs ∧ r ∉ g.inputs)) := by
  intro l
  induction l with
  | nil => simp [checkRefs]
  | cons n rest ih =>
    intro r h
    unfold checkRefs at h
    cases h1 : firstUnmet (nodeNames g) n.nodeRefs with
    | some x =>
      simp [h1] at h
      subst h
      exact ⟨n, List.mem_cons_self n rest, Or.inl (firstUnmet_some h1)⟩
    | none =>
      cases h2 : firstUnmet g.inputs n.inputRefs with
      | some x =>
        simp [h1, h2] at h
        subst h
        exact ⟨n, List.mem_cons_self n rest, Or.inr (firstUnmet_some h2)⟩
      | none =>
        simp [h1, h2] at h
        rcases ih h with ⟨m, hm, hd⟩
        exact ⟨m, List.mem_cons_of_mem n hm, hd⟩

theorem checkRefs_eq_none {g : FlowGraph} (hres : Resolved g) :
    checkRefs g g.nodes = none := by
  cases h : checkRefs g g.nodes with
  | none => rfl
  | some r =>
    rcases checkRefs_some h with ⟨n, hn, hd⟩
    rcases hres n hn with ⟨h1, h2⟩
    rcases hd with ⟨hr, hnot⟩ | ⟨hr, hnot⟩
    · exact absurd (h1 _ hr) hnot
    · exact absurd (h2 _ hr) hnot

theorem filter_partition_perm (p : Node → Bool) (l : List Node) :
    List.Perm (l.filter p ++ l.filter (fun a => !p a)) l := by
  induction l with
  | nil => simp
  | cons a l ih =>
    by_cases h : p a = true
    · simpa [List.filter_cons, h] using ih.cons a
    · have h2 : p a = false := Bool.of_not_eq_true h
      simp only [List.filter_cons, h2, Bool.not_false, if_true, if_false,
        Bool.false_eq_true, cond_false, cond_true]
      exact List.Perm.trans List.perm_middle (ih.cons a)

/-- Index of the first occurrence of a string in a list. -/
def idxOf (x : String) : List String → Nat
  | [] => 0
  | y :: ys => if y = x then 0 else idxOf x ys + 1

theorem idxOf_append_self (x : String) (l1 l2 : List String) (hx : x ∉ l1) :
    idxOf x (l1 ++ x :: l2) = l1.length := by
  induction l1 with
  | nil => simp [idxOf]
  | cons y ys ih =>
    have hyx : ¬ y = x := fun hc => hx (hc ▸ List.mem_cons_self y ys)
    simp only [List.cons_append, idxOf, if_neg hyx, List.length_cons]
    show idxOf x (ys ++ x :: l2) + 1 = ys.length + 1
    rw [ih (fun hc => hx (List.mem_cons_of_mem y hc))]

theorem idxOf_lt_of_mem_left (x : String) (l1 l2 : List String) (hx : x ∈ l1) :
    idxOf x (l1 ++ l2) < l1.length := by
  induction l1 with
  | nil => simp at hx
  | cons y ys ih =>
    by_cases hyx : y = x
    · simp [idxOf, hyx]
    · have hx2 : x ∈ ys := by
        rcases List.mem_cons.mp hx with h | h
        · exact absurd h.symm hyx
        · exact h
      simp only [List.cons_append, idxOf, if_neg hyx, List.length_cons]
      exact Nat.succ_lt_succ (ih hx2)

theorem nodup_subset_length_le {l l2 : List String} (hnd : l.Nodup)
    (hsub : ∀ x ∈ l, x ∈ l2) : l.length ≤ l2.length := by
  calc l.length = l.toFinset.card := (List.toFinset_card_of_nodup hnd).symm
    _ ≤ l2.toFinset.card := by
        apply Finset.card_le_card
        intro x hx
        exact List.mem_toFinset.mpr (hsub x (List.mem_toFinset.mp hx))
    _ ≤ l2.length := l2.toFinset_card_le

/-! ### Cycle extraction: the walk along blocked-by edges closes a cycle -/

theorem chain_append_transGen {r : String → String → Prop} :
    ∀ (B : List String) (x y : String), List.Chain r x (B ++ [y]) →
      Relation.TransGen r x y := by
  intro B
  induction B with
  | nil =>
    intro x y h
    cases h with
    | cons hxy _ => exact Relation.TransGen.single hxy
  | cons b bs ih =>
    intro x y h
    cases h with
    | cons hxb hrest => exact Relation.TransGen.head hxb (ih b y hrest)

theorem findCycleNode_spec (g : FlowGraph) (emitted : List String)
    (pending : List Node)
    (hsub : ∀ m ∈ pending, m ∈ g.nodes)
    (hstuck : ∀ m ∈ pending, isReady emitted m = false)
    (hres : ∀ m ∈ g.nodes, ∀ r ∈ m.nodeRefs, r ∈ nodeNames g)
    (hcov : ∀ r, r ∈ nodeNames g → r ∉ emitted →
      r ∈ pending.map (fun m => m.name)) :
    ∀ fuel (visited : List String) (cur : Node),
      cur ∈ pending →
      List.Chain' (stepRel g) (visited ++ [cur.name]) →
      visited.Nodup →
      (∀ v ∈ visited, v ∈ pending.map (fun m => m.name)) →
      pending.length + 1 = fuel + visited.length →
      Relation.TransGen (stepRel g)
        (findCycleNode emitted pending fuel visited cur)
        (findCycleNode emitted pending fuel visited cur) := by
  intro fuel
  induction fuel with
  | zero =>
    intro visited cur _ _ hnd hsubv harith
    exfalso
    have h1 : visited.length ≤ pending.length := by
      have h2 := nodup_subset_length_le hnd hsubv
      simpa using h2
    omega
  | succ fuel ih =>
    intro visited cur hcur hchain hnd hsubv harith
    by_cases hmem : memb cur.name visited = true
    · have hcv : cur.name ∈ visited := (memb_iff _ _).mp hmem
      rcases List.append_of_mem hcv with ⟨A, B, hAB⟩
      have hred : findCycleNode emitted pending (fuel + 1) visited cur
          = cur.name := by
        simp [findCycleNode, hmem]
      rw [hred]
      have hch2 : List.Chain' (stepRel g) ((cur.name :: B) ++ [cur.name]) := by
        have hre : visited ++ [cur.name]
            = A ++ ((cur.name :: B) ++ [cur.name]) := by
          rw [hAB]
          simp
        rw [hre] at hchain
        exact hchain.right_of_append
      have hch3 : List.Chain (stepRel g) cur.name (B ++ [cur.name]) := hch2
      exact chain_append_transGen B cur.name cur.name hch3
    · have hnr : isReady emitted cur = false := hstuck cur hcur
      rcases isReady_false hnr with ⟨r, hfu⟩
      rcases firstUnmet_some hfu with ⟨hrin, hrne⟩
      have hrnames : r ∈ nodeNames g := hres cur (hsub cur hcur) r hrin
      have hrpend : r ∈ pending.map (fun m => m.name) := hcov r hrnames hrne
      rcases findNode_isSome hrpend with ⟨nxt, hfind⟩
      rcases findNode_some hfind with ⟨hnxtpend, hnxtname⟩
      have hstep : stepRel g cur.name nxt.name :=
        ⟨cur, hsub cur hcur, rfl, hnxtname ▸ hrin⟩
      have heq : findCycleNode emitted pending (fuel + 1) visited cur
          = findCycleNode emitted pending fuel (visited ++ [cur.name]) nxt := by
        simp [findCycleNode, hmem, blockerOf, hfu, hfind]
      rw [heq]
      apply ih (visited ++ [cur.name]) nxt hnxtpend
      · apply List.Chain'.append hchain (List.chain'_singleton nxt.name)
        intro x hx y hy
        rw [List.getLast?_concat] at hx
        simp only [List.head?_cons, Option.mem_def, Option.some.injEq] at hx hy
        subst hx
        subst hy
        exact hstep
      · simp [List.nodup_append, hnd]
        exact fun hc => hmem ((memb_iff _ _).mpr hc)
      · intro v hv
        rcases List.mem_append.mp hv with h1 | h1
        · exact hsubv v h1
        · have hveq : v = cur.name := by simpa using h1
          exact hveq ▸ List.mem_map.mpr ⟨cur, hcur, rfl⟩
      · simp only [List.length_append, List.length_cons, List.length_nil]
        omega

/-! ### Soundness of the Kahn iteration -/

theorem RespectsDeps_append (g : FlowGraph) (hnd : (nodeNames g).Nodup)
    (acc : List String) (batch : List Node)
    (hresp : RespectsDeps g acc)
    (hbatchg : ∀ m ∈ batch, m ∈ g.nodes)
    (hbatchready : ∀ m ∈ batch, ∀ r ∈ m.nodeRefs, r ∈ acc) :
    RespectsDeps g (acc ++ batch.map (fun m => m.name)) := by
  have hbatchcase : ∀ m ∈ g.nodes, m.name ∈ batch.map (fun mm => mm.name) →
      ∀ r ∈ m.nodeRefs, r ∈ acc := by
    intro m hm hmn r hr
    rcases List.mem_map.mp hmn with ⟨mb, hmb, hmbname⟩
    have hnd2 : (g.nodes.map (fun nn => nn.name)).Nodup := hnd
    have hmbm : mb = m := by
      apply List.inj_on_of_nodup_map hnd2 (hbatchg mb hmb) hm
      exact hmbname
    exact hbatchready m (hmbm ▸ hmb) r hr
  intro m hm l1 l2 heq r hr
  rcases List.append_eq_append_iff.mp heq with ⟨a2, ha1, ha2⟩ | ⟨c2, hc1, hc2⟩
  · have hmn : m.name ∈ batch.map (fun mm => mm.name) := by
      rw [ha2]
      simp
    have hracc : r ∈ acc := hbatchcase m hm hmn r hr
    rw [ha1]
    exact List.mem_append_left a2 hracc
  · cases c2 with
    | nil =>
      have hacc : acc = l1 := by simpa using hc1
      have hmn : m.name ∈ batch.map (fun mm => mm.name) := by
        have h2 : m.name :: l2 = batch.map (fun mm => mm.name) := by
          simpa using hc2
        rw [← h2]
        exact List.mem_cons_self _ _
      have hracc : r ∈ acc := hbatchcase m hm hmn r hr
      exact hacc ▸ hracc
    | cons x c2t =>
      have h2 : m.name :: l2 = x :: (c2t ++ batch.map (fun mm => mm.name)) := by
        simpa using hc2
      have hx1 : m.name = x := by
        injection h2
      have hc1b : acc = l1 ++ m.name :: c2t := by
        rw [hc1, hx1]
      exact hresp m hm l1 c2t hc1b r hr

theorem topoAux_sound (g : FlowGraph) (hnd : (nodeNames g).Nodup)
    (hres : ∀ m ∈ g.nodes, ∀ r ∈ m.nodeRefs, r ∈ nodeNames g) :
    ∀ fuel (pending : List Node) (acc : List String),
      (∀ m ∈ pending, m ∈ g.nodes) →
      List.Perm (acc ++ pending.map (fun m => m.name)) (nodeNames g) →
      RespectsDeps g acc →
      pending.length ≤ fuel →
      (∀ order, topoAux fuel pending acc = .ok order → validOrder g order)
      ∧ (∀ v, topoAux fuel pending acc = .error (.cyclic v) →
          Relation.TransGen (stepRel g) v v)
      ∧ (∀ r, topoAux fuel pending acc = .error (.unresolved r) → False) := by
  intro fuel
  induction fuel with
  | zero =>
    intro pending acc _ hperm hresp hlen
    have hpe : pending = [] := List.eq_nil_of_length_eq_zero (Nat.le_zero.mp hlen)
    subst hpe
    refine ⟨?_, ?_, ?_⟩
    · intro order h
      simp only [topoAux, Except.ok.injEq] at h
      subst h
      exact ⟨by simpa using hperm, hresp⟩
    · intro v h
      simp [topoAux] at h
    · intro r h
      simp [topoAux] at h
  | succ fuel ih =>
    intro pending acc hsub hperm hresp hlen
    cases pending with
    | nil =>
      refine ⟨?_, ?_, ?_⟩
      · intro order h
        simp only [topoAux, Except.ok.injEq] at h
        subst h
        exact ⟨by simpa using hperm, hresp⟩
      · intro v h
        simp [topoAux] at h
      · intro r h
        simp [topoAux] at h
    | cons n rest =>
      by_cases hready : ((n :: rest).filter (isReady acc)).isEmpty = true
      · have hstuck : ∀ m ∈ n :: rest, isReady acc m = false := by
          intro m hm
          have hnil : (n :: rest).filter (isReady acc) = [] :=
            List.isEmpty_iff.mp hready
          by_cases hc : isReady acc m = true
          · have : m ∈ (n :: rest).filter (isReady acc) :=
              List.mem_filter.mpr ⟨hm, hc⟩
            rw [hnil] at this
            simp at this
          · exact Bool.of_not_eq_true hc
        have hcov : ∀ r, r ∈ nodeNames g → r ∉ acc →
            r ∈ (n :: rest).map (fun m => m.name) := by
          intro r hng hna
          have hmem2 : r ∈ acc ++ (n :: rest).map (fun m => m.name) :=
            hperm.mem_iff.mpr hng
          rcases List.mem_append.mp hmem2 with h1 | h1
          · exact absurd h1 hna
          · exact h1
        have hcyc := findCycleNode_spec g acc (n :: rest) hsub hstuck hres hcov
          (rest.length + 2) [] n (List.mem_cons_self n rest)
          (by simp)
          List.nodup_nil (by simp) (by simp)
        have hredstep : topoAux (fuel + 1) (n :: rest) acc
            = .error (.cyclic (findCycleNode acc (n :: rest)
                (rest.length + 2) [] n)) := by
          simp only [topoAux, hready, if_true]
        refine ⟨?_, ?_, ?_⟩
        · intro order h
          rw [hredstep] at h
          simp at h
        · intro v h
          rw [hredstep] at h
          simp only [Except.error.injEq, ResolveError.cyclic.injEq] at h
          subst h
          exact hcyc
        · intro r h
          rw [hredstep] at h
          simp at h
      · have hready2 : ((n :: rest).filter (isReady acc)).isEmpty = false :=
          Bool.of_not_eq_true hready
        have hredstep : topoAux (fuel + 1) (n :: rest) acc
            = topoAux fuel ((n :: rest).filter (fun m => !(isReady acc m)))
                (acc ++ ((n :: rest).filter (isReady acc)).map
                  (fun m => m.name)) := by
          simp only [topoAux, hready2, Bool.false_eq_true, if_false]
        have hpartition : List.Perm
            (((n :: rest).filter (isReady acc)).map (fun m => m.name) ++
              ((n :: rest).filter (fun m => !(isReady acc m))).map
                (fun m => m.name))
            ((n :: rest).map (fun m => m.name)) := by
          have hp := (filter_partition_perm (isReady acc) (n :: rest)).map
            (fun m => m.name)
          simpa using hp
        have hsub2 : ∀ m ∈ (n :: rest).filter (fun m => !(isReady acc m)),
            m ∈ g.nodes := by
          intro m hm
          exact hsub m (List.mem_of_mem_filter hm)
        have hperm2 : List.Perm
            ((acc ++ ((n :: rest).filter (isReady acc)).map (fun m => m.name))
              ++ ((n :: rest).filter (fun m => !(isReady acc m))).map
                (fun m => m.name))
            (nodeNames g) := by
          rw [List.append_assoc]
          exact List.Perm.trans (List.Perm.append_left acc hpartition) hperm
        have hresp2 : RespectsDeps g
            (acc ++ ((n :: rest).filter (isReady acc)).map
              (fun m => m.name)) := by
          apply RespectsDeps_append g hnd acc _ hresp
          · intro m hm
            exact hsub m (List.mem_of_mem_filter hm)
          · intro m hm r hr
            have hmr : isReady acc m = true := (List.mem_filter.mp hm).2
            exact (isReady_iff acc m).mp hmr r hr
        have hlen2 : ((n :: rest).filter (fun m => !(isReady acc m))).length
            ≤ fuel := by
          have hlb := hpartition.length_eq
          simp only [List.length_append, List.length_map,
            List.length_cons] at hlb
          have hr1 : 0 < ((n :: rest).filter (isReady acc)).length := by
            cases hfe : (n :: rest).filter (isReady acc) with
            | nil =>
              rw [hfe] at hready2
              simp at hready2
            | cons a l => simp
          have hl3 : ((n :: rest).filter (isReady acc)).length ≤ rest.length + 1 := by
            have := List.length_filter_le (isReady acc) (n :: rest)
            simpa using this
          simp only [List.length_cons] at hlen
          omega
        rcases ih _ _ hsub2 hperm2 hresp2 hlen2 with ⟨h1, h2, h3⟩
        refine ⟨?_, ?_, ?_⟩
        · intro order h
          rw [hredstep] at h
          exact h1 order h
        · intro v h
          rw [hredstep] at h
          exact h2 v h
        · intro r h
          rw [hredstep] at h
          exact h3 r h

theorem RespectsDeps_nil (g : FlowGraph) : RespectsDeps g [] := by
  intro n _ l1 l2 h r _
  exfalso
  cases l1 with
  | nil => simp at h
  | cons a t => simp at h

theorem stepRel_idx_lt (g : FlowGraph) (hnd : (nodeNames g).Nodup)
    (order : List String) (hv : validOrder g order) :
    ∀ a b, stepRel g a b → idxOf b order < idxOf a order := by
  rintro a b ⟨n, hn, hna, hr⟩
  subst hna
  have hmm : n.name ∈ order := hv.1.mem_iff.mpr (List.mem_map.mpr ⟨n, hn, rfl⟩)
  rcases List.append_of_mem hmm with ⟨l1, l2, hsplit⟩
  have hrl1 : b ∈ l1 := hv.2 n hn l1 l2 hsplit b hr
  have hord : order.Nodup := hv.1.nodup_iff.mpr hnd
  have hnotin : n.name ∉ l1 := by
    rw [hsplit] at hord
    have h2 := List.nodup_middle.mp hord
    rcases List.nodup_cons.mp h2 with ⟨hnm, _⟩
    intro hc
    exact hnm (List.mem_append_left l2 hc)
  rw [hsplit, idxOf_append_self _ _ _ hnotin]
  exact idxOf_lt_of_mem_left b l1 (n.name :: l2) hrl1

theorem transGen_idx_lt (g : FlowGraph) (hnd : (nodeNames g).Nodup)
    (order : List String) (hv : validOrder g order) :
    ∀ a b, Relation.TransGen (stepRel g) a b →
      idxOf b order < idxOf a order := by
  intro a b h
  induction h with
  | single hs => exact stepRel_idx_lt g hnd order hv _ _ hs
  | tail _ hbc ih =>
    exact Nat.lt_trans (stepRel_idx_lt g hnd order hv _ _ hbc) ih

theorem validOrder_no_cycle (g : FlowGraph) (hnd : (nodeNames g).Nodup)
    (order : List String) (hv : validOrder g order) : ¬ hasCycle g := by
  rintro ⟨v, hc⟩
  exact absurd (transGen_idx_lt g hnd order hv v v hc) (Nat.lt_irrefl _)

/-- C1: for every acyclic resolved Flow Graph the Dependency Resolver
returns an order in which every node appears strictly after all nodes it
references; for every resolved graph containing a cycle it fails with
`CyclicDependencyError` naming a node that lies on a cycle; and for every
graph with a dangling reference it fails with `UnresolvedReferenceError`
naming a dangling reference. -/
theorem dependency_resolver_correct (g : FlowGraph)
    (hnd : (nodeNames g).Nodup) :
    (Resolved g → ¬ hasCycle g →
      ∃ order, resolve g = .ok order ∧ validOrder g order)
    ∧ (Resolved g → hasCycle g →
      ∃ v, resolve g = .error (.cyclic v) ∧ Relation.TransGen (stepRel g) v v)
    ∧ (¬ Resolved g →
      ∃ r, resolve g = .error (.unresolved r) ∧ Dangling g r) := by
  refine ⟨?_, ?_, ?_⟩
  · intro hresv hnc
    have hres : ∀ m ∈ g.nodes, ∀ r ∈ m.nodeRefs, r ∈ nodeNames g :=
      fun m hm => (hresv m hm).1
    have hchk : checkRefs g g.nodes = none := checkRefs_eq_none hresv
    have hrw : resolve g = topoAux g.nodes.length g.nodes [] := by
      simp [resolve, hchk]
    rcases topoAux_sound g hnd hres g.nodes.length g.nodes []
      (fun _ hm => hm) (by simp [nodeNames]) (RespectsDeps_nil g)
      (Nat.le_refl _) with ⟨h1, h2, _⟩
    cases ht : topoAux g.nodes.length g.nodes [] with
    | ok order => exact ⟨order, by rw [hrw, ht], h1 order ht⟩
    | error e =>
      cases e with
      | cyclic v => exact absurd ⟨v, h2 v ht⟩ hnc
      | unresolved r =>
        rcases topoAux_sound g hnd hres g.nodes.length g.nodes []
          (fun _ hm => hm) (by simp [nodeNames]) (RespectsDeps_nil g)
          (Nat.le_refl _) with ⟨_, _, h3⟩
        exact (h3 r ht).elim
  · intro hresv hcyc
    have hres : ∀ m ∈ g.nodes, ∀ r ∈ m.nodeRefs, r ∈ nodeNames g :=
      fun m hm => (hresv m hm).1
    have hchk : checkRefs g g.nodes = none := checkRefs_eq_none hresv
    have hrw : resolve g = topoAux g.nodes.length g.nodes [] := by
      simp [resolve, hchk]
    rcases topoAux_sound g hnd hres g.nodes.length g.nodes []
      (fun _ hm => hm) (by simp [nodeNames]) (RespectsDeps_nil g)
      (Nat.le_refl _) with ⟨h1, h2, h3⟩
    cases ht : topoAux g.nodes.length g.nodes [] with
    | ok order =>
      exact absurd hcyc (validOrder_no_cycle g hnd order (h1 order ht))
    | error e =>
      cases e with
      | cyclic v => exact ⟨v, by rw [hrw, ht], h2 v ht⟩
      | unresolved r => exact (h3 r ht).elim
  · intro hnres
    cases hchk : checkRefs g g.nodes with
    | none =>
      exact absurd (fun n hn => checkRefs_none hchk n hn) hnres
    | some r =>
      refine ⟨r, by simp [resolve, hchk], ?_⟩
      rcases checkRefs_some hchk with ⟨n, hn, hd⟩
      exact ⟨n, hn, hd⟩

instance instDecResolved (g : FlowGraph) : Decidable (Resolved g) := by
  unfold Resolved
  exact inferInstance

/-- A two-node acyclic graph: node b references node a. -/
def gA : FlowGraph :=
  { nodes :=
      [{ name := ("a"), bindings := [], activate := none,
         enableCache := false, version := 0 },
       { name := ("b"),
         bindings := [(("x"), Binding.nodeOutput ("a") false)],
         activate := none, enableCache := false, version := 0 }],
    inputs := [] }

/-- First node of the cyclic witness graph: a references b. -/
def gCnodeA : Node :=
  { name := ("a"), bindings := [(("x"), Binding.nodeOutput ("b") false)],
    activate := none, enableCache := false, version := 0 }

/-- Second node of the cyclic witness graph: b references a. -/
def gCnodeB : Node :=
  { name := ("b"), bindings := [(("y"), Binding.nodeOutput ("a") false)],
    activate := none, enableCache := false, version := 0 }

/-- A two-node cyclic graph: a references b and b references a. -/
def gC : FlowGraph :=
  { nodes := [gCnodeA, gCnodeB], inputs := [] }

/-- A one-node graph whose single node references the nonexistent node z. -/
def gU : FlowGraph :=
  { nodes :=
      [{ name := ("a"),
         bindings := [(("x"), Binding.nodeOutput ("z") false)],
         activate := none, enableCache := false, version := 0 }],
    inputs := [] }

theorem gA_step_char : ∀ x y, stepRel gA x y → x = ("b") ∧ y = ("a") := by
  rintro x y ⟨n, hn, hna, hr⟩
  subst hna
  simp only [gA, List.mem_cons, List.mem_singleton] at hn
  rcases hn with h1 | h1 | h1
  · subst h1
    simp [Node.nodeRefs, Node.allBindings, Node.activateSources,
      bindingNodeRef] at hr
  · subst h1
    simp only [Node.nodeRefs, Node.allBindings, Node.activateSources,
      bindingNodeRef, List.map_cons, List.map_nil, List.filterMap,
      List.append_nil, List.mem_singleton] at hr
    exact ⟨rfl, hr⟩
  · exact absurd h1 (by simp)

theorem gA_no_cycle : ¬ hasCycle gA := by
  rintro ⟨v, hc⟩
  have h2 : ∀ x y, Relation.TransGen (stepRel gA) x y →
      x = ("b") ∧ y = ("a") := by
    intro x y h
    induction h with
    | single hs => exact gA_step_char _ _ hs
    | tail _ hyz ih =>
      rcases gA_step_char _ _ hyz with ⟨h3, h4⟩
      rcases ih with ⟨_, h6⟩
      exact absurd (h6.symm.trans h3) (by decide)
  rcases h2 v v hc with ⟨h3, h4⟩
  exact absurd (h3.symm.trans h4) (by decide)

theorem gC_has_cycle : hasCycle gC := by
  have h1 : stepRel gC ("a") ("b") := ⟨gCnodeA, by decide, by decide, by decide⟩
  have h2 : stepRel gC ("b") ("a") := ⟨gCnodeB, by decide, by decide, by decide⟩
  exact ⟨("a"), Relation.TransGen.head h1 (Relation.TransGen.single h2)⟩

/-- Witness for C1 at three concrete graphs: an acyclic one, a cyclic one
and one with a dangling reference. -/
theorem dependency_resolver_correct_witness :
    (∃ order, resolve gA = .ok order ∧ validOrder gA order)
    ∧ (∃ v, resolve gC = .error (.cyclic v) ∧
        Relation.TransGen (stepRel gC) v v)
    ∧ (∃ r, resolve gU = .error (.unresolved r) ∧ Dangling gU r) := by
  refine ⟨?_, ?_, ?_⟩
  · exact (dependency_resolver_correct gA (by decide)).1 (by decide) gA_no_cycle
  · exact (dependency_resolver_correct gC (by decide)).2.1 (by decide)
      gC_has_cycle
  · exact (dependency_resolver_correct gU (by decide)).2.2 (by decide)

/-! ## Node Executor and Flow Runner

Modelled from the spec (sections 4.2 and 4.3): a single line executes the
resolved node list in order; each node is bypassed, served from cache, or
invoked; results, errors and timing are recorded in the Execution Context
and snapshotted into a Line Result. -/

/-- Per-node terminal status inside a line (spec section 3). -/
inductive NodeStatus
  | completed
  | failed
  | bypassed
deriving DecidableEq, Repr

/-- Modelled from the spec: the per-node entry of the Execution Context —
status, output (None for failed and bypassed nodes), captured error detail
and timing (spec sections 3 and 4.2). -/
structure NodeRecord where
  status : NodeStatus
  output : Value
  errorDetail : Option String
  startTime : Nat
  endTime : Nat
deriving DecidableEq, Repr

/-- Modelled from the spec: a callable invocation either succeeds with a
value or reports a recoverable (non-fatal) error; either way it consumes
some duration (spec section 4.2). -/
inductive CallResult
  | success (v : Value) (dur : Nat)
  | failure (msg : String) (dur : Nat)
deriving DecidableEq, Repr

/-- The abstract node-callable capability of spec section 6: node name and
named inputs in, result out. -/
def Impl : Type := String → List (String × Value) → CallResult

/-- One batch input row: named flow-input values. -/
def Row : Type := List (String × Value)

def lookupRecord : List (String × NodeRecord) → String → Option NodeRecord
  | [], _ => none
  | (k, v) :: rest, s => if k = s then some v else lookupRecord rest s

def lookupVal : List (String × Value) → String → Option Value
  | [], _ => none
  | (k, v) :: rest, s => if k = s then some v else lookupVal rest s

/-- Modelled from the spec: binding resolution — literals pass through,
flow-input references read the row, node-output references read the
upstream record's output (which is None for failed or bypassed nodes, so
downstream nodes referencing a failed node receive None; spec section 4.2). -/
def resolveBinding (row : Row) (ctx : List (String × NodeRecord)) :
    Binding → Value
  | .lit v => v
  | .flowInput s => (lookupVal row s).getD Value.vnull
  | .nodeOutput s _ =>
    match lookupRecord ctx s with
    | some r0 => r0.output
    | none => Value.vnull

/-- The node's activation condition evaluates false. -/
def activationFalse (row : Row) (ctx : List (String × NodeRecord))
    (n : Node) : Bool :=
  match n.activate with
  | none => false
  | some c => decide (¬ resolveBinding row ctx c.source = c.expected)

/-- Some required (non-failure-tolerant) upstream of the node failed. -/
def requiredUpstreamFailed (ctx : List (String × NodeRecord))
    (n : Node) : Bool :=
  n.bindings.any (fun p =>
    match p.2 with
    | .nodeOutput s tolerant =>
      !tolerant &&
        (match lookupRecord ctx s with
         | some r0 => decide (r0.status = NodeStatus.failed)
         | none => false)
    | _ => false)

/-- Modelled from the spec: a node is bypassed when its activation condition
evaluates false or a required upstream failed and it has no
failure-tolerant binding for it (spec section 4.3). -/
def shouldBypass (row : Row) (ctx : List (String × NodeRecord))
    (n : Node) : Bool :=
  activationFalse row ctx n || requiredUpstreamFailed ctx n

/-- Cache key: node identity, resolved input values, callable version
(spec section 3). -/
def CacheKey : Type := String × List (String × Value) × Nat

instance : DecidableEq CacheKey := by
  unfold CacheKey
  exact inferInstance

def lookupCache : List (CacheKey × Value) → CacheKey → Option Value
  | [], _ => none
  | (k, v) :: rest, key => if k = key then some v else lookupCache rest key

/-- The Flow Runner's working state for one line: Execution Context,
cache store, clock, and the log of actual callable invocations. -/
structure LineState where
  ctx : List (String × NodeRecord)
  cache : List (CacheKey × Value)
  clock : Nat
  calls : List (String × List (String × Value))

def resolvedInputs (row : Row) (ctx : List (String × NodeRecord))
    (n : Node) : List (String × Value) :=
  n.bindings.map (fun p => (p.1, resolveBinding row ctx p.2))

def cacheKeyOf (row : Row) (ctx : List (String × NodeRecord))
    (n : Node) : CacheKey :=
  (n.name, resolvedInputs row ctx n, n.version)

/-- Modelled from the spec: actually invoke the node's callable; on success
record the output (and write a Cache Entry if caching is enabled for the
node), on a recoverable error record status failed with the error detail
and output None, never propagating (spec section 4.2). -/
def invokeNode (impl : Impl) (s : LineState) (n : Node)
    (args : List (String × Value)) (key : CacheKey) : LineState :=
  match impl n.name args with
  | .success v d =>
    { ctx := s.ctx ++ [(n.name, ⟨.completed, v, none, s.clock, s.clock + d⟩)],
      cache := if n.enableCache then (key, v) :: s.cache else s.cache,
      clock := s.clock + d,
      calls := s.calls ++ [(n.name, args)] }
  | .failure msg d =>
    { ctx := s.ctx ++ [(n.name, ⟨.failed, .vnull, some msg, s.clock, s.clock + d⟩)],
      cache := s.cache,
      clock := s.clock + d,
      calls := s.calls ++ [(n.name, args)] }

/-- Modelled from the spec: execute one node — bypass without invocation,
serve a Cache Entry with status completed and no elapsed time, or invoke
the callable (spec section 4.2). -/
def stepNode (impl : Impl) (row : Row) (s : LineState) (n : Node) :
    LineState :=
  if shouldBypass row s.ctx n then
    { s with ctx := s.ctx ++ [(n.name, ⟨.bypassed, .vnull, none, s.clock, s.clock⟩)] }
  else
    let args := resolvedInputs row s.ctx n
    let key : CacheKey := (n.name, args, n.version)
    if n.enableCache = true then
      match lookupCache s.cache key with
      | some v =>
        { s with ctx := s.ctx ++ [(n.name, ⟨.completed, v, none, s.clock, s.clock⟩)] }
      | none => invokeNode impl s n args key
    else invokeNode impl s n args key

def runNodes (impl : Impl) (row : Row) (nodes : List Node)
    (s : LineState) : LineState :=
  nodes.foldl (stepNode impl row) s

/-- A declared flow-level output: name, source reference, required flag
(spec section 4.3). -/
structure OutputDecl where
  name : String
  source : Binding
  required : Bool
deriving DecidableEq, Repr

inductive LineStatus
  | completed
  | failed
deriving DecidableEq, Repr

/-- The declared output's source node failed. -/
def outputSourceFailed (ctx : List (String × NodeRecord))
    (o : OutputDecl) : Bool :=
  match o.source with
  | .nodeOutput s _ =>
    (match lookupRecord ctx s with
     | some r0 => decide (r0.status = NodeStatus.failed)
     | none => false)
  | _ => false

/-- Modelled from the spec: the immutable Line Result snapshot — status,
flow outputs, per-node records and timing (spec section 3). -/
structure LineResult where
  status : LineStatus
  outputs : List (String × Value)
  records : List (String × NodeRecord)
  startTime : Nat
  endTime : Nat
deriving DecidableEq, Repr

def initState (cache0 : List (CacheKey × Value)) (t0 : Nat) : LineState :=
  ⟨[], cache0, t0, []⟩

/-- Modelled from the spec: run one full line — drive all nodes in resolver
order, then resolve the declared flow outputs against the final Execution
Context; the line fails exactly when a required output's source node failed
(spec section 4.3). Returns the Line Result and the final runner state. -/
def runLine (nodes : List Node) (outs : List OutputDecl) (impl : Impl)
    (row : Row) (cache0 : List (CacheKey × Value)) (t0 : Nat) :
    LineResult × LineState :=
  let s := runNodes impl row nodes (initState cache0 t0)
  ({ status :=
       if outs.any (fun o => o.required && outputSourceFailed s.ctx o) then
         .failed
       else .completed,
     outputs := outs.map (fun o => (o.name, resolveBinding row s.ctx o.source)),
     records := s.ctx,
     startTime := t0,
     endTime := s.clock }, s)

/-- A node record without its timing fields. -/
structure StrippedRecord where
  status : NodeStatus
  output : Value
  errorDetail : Option String
deriving DecidableEq, Repr

def stripRecord (r0 : NodeRecord) : StrippedRecord :=
  ⟨r0.status, r0.output, r0.errorDetail⟩

/-- A Line Result without its timing fields. -/
structure StrippedLine where
  status : LineStatus
  outputs : List (String × Value)
  records : List (String × StrippedRecord)
deriving DecidableEq, Repr

def strippedCtx (ctx : List (String × NodeRecord)) :
    List (String × StrippedRecord) :=
  ctx.map (fun p => (p.1, stripRecord p.2))

def stripTiming (lr : LineResult) : StrippedLine :=
  ⟨lr.status, lr.outputs, strippedCtx lr.records⟩

/-! ### Runner toolbox: context, cache and call-log structure -/

theorem anyCongr {α : Type} (l : List α) (p q : α → Bool)
    (h : ∀ a ∈ l, p a = q a) : l.any p = l.any q := by
  induction l with
  | nil => rfl
  | cons a t ih =>
    simp only [List.any_cons]
    rw [h a (List.mem_cons_self a t),
      ih (fun x hx => h x (List.mem_cons_of_mem a hx))]

theorem lookupRecord_append_left {l1 : List (String × NodeRecord)}
    {x : String} {v : NodeRecord} (l2 : List (String × NodeRecord))
    (h : lookupRecord l1 x = some v) :
    lookupRecord (l1 ++ l2) x = some v := by
  induction l1 with
  | nil => simp [lookupRecord] at h
  | cons p t ih =>
    obtain ⟨k, w⟩ := p
    simp only [lookupRecord] at h
    simp only [List.cons_append, lookupRecord]
    by_cases hp : k = x
    · simpa [hp] using h
    · simp only [hp, if_false] at h ⊢
      exact ih h

theorem lookupRecord_append_right {l1 : List (String × NodeRecord)}
    {x : String} (l2 : List (String × NodeRecord))
    (h : lookupRecord l1 x = none) :
    lookupRecord (l1 ++ l2) x = lookupRecord l2 x := by
  induction l1 with
  | nil => simp
  | cons p t ih =>
    obtain ⟨k, w⟩ := p
    simp only [lookupRecord] at h
    simp only [List.cons_append, lookupRecord]
    by_cases hp : k = x
    · simp [hp] at h
    · simp only [hp, if_false] at h ⊢
      exact ih h

theorem lookupRecord_none_of_not_mem {l : List (String × NodeRecord)}
    {x : String} (h : x ∉ l.map Prod.fst) : lookupRecord l x = none := by
  induction l with
  | nil => rfl
  | cons p t ih =>
    unfold lookupRecord
    by_cases hp : p.1 = x
    · exact absurd (by simp [hp]) h
    · simp only [hp, if_false]
      exact ih (fun hc => h (by simp [hc]))

theorem lookupRecord_isSome_of_mem {l : List (String × NodeRecord)}
    {x : String} (h : x ∈ l.map Prod.fst) :
    ∃ v, lookupRecord l x = some v := by
  induction l with
  | nil => simp at h
  | cons p t ih =>
    unfold lookupRecord
    by_cases hp : p.1 = x
    · exact ⟨p.2, by simp [hp]⟩
    · simp only [hp, if_false]
      apply ih
      simp only [List.map_cons, List.mem_cons] at h
      rcases h with h1 | h1
      · exact absurd h1.symm hp
      · exact h1

theorem stepNode_ctx (impl : Impl) (row : Row) (s : LineState) (n : Node) :
    ∃ rc, (stepNode impl row s n).ctx = s.ctx ++ [(n.name, rc)] := by
  unfold stepNode invokeNode
  by_cases hb : shouldBypass row s.ctx n = true
  · refine ⟨⟨.bypassed, .vnull, none, s.clock, s.clock⟩, ?_⟩
    simp [hb]
  · simp only [hb, Bool.false_eq_true, if_false]
    by_cases hc : n.enableCache = true
    · simp only [hc, if_true]
      cases hl : lookupCache s.cache
          (n.name, resolvedInputs row s.ctx n, n.version) with
      | some v => exact ⟨_, rfl⟩
      | none =>
        cases himpl : impl n.name (resolvedInputs row s.ctx n) with
        | success v d => exact ⟨_, rfl⟩
        | failure msg d => exact ⟨_, rfl⟩
    · simp only [hc, if_false]
      cases himpl : impl n.name (resolvedInputs row s.ctx n) with
      | success v d => exact ⟨_, rfl⟩
      | failure msg d => exact ⟨_, rfl⟩

theorem runNodes_ctx (impl : Impl) (row : Row) :
    ∀ (nodes : List Node) (s : LineState),
      ∃ tail, (runNodes impl row nodes s).ctx = s.ctx ++ tail
        ∧ tail.map Prod.fst = nodes.map Node.name := by
  intro nodes
  induction nodes with
  | nil => exact fun s => ⟨[], by simp [runNodes], by simp⟩
  | cons n rest ih =>
    intro s
    rcases stepNode_ctx impl row s n with ⟨rc, hrc⟩
    rcases ih (stepNode impl row s n) with ⟨tail, ht1, ht2⟩
    refine ⟨(n.name, rc) :: tail, ?_, ?_⟩
    · show (runNodes impl row rest (stepNode impl row s n)).ctx = _
      rw [ht1, hrc]
      simp
    · simp [ht2]

theorem stepNode_cache_cases (impl : Impl) (row : Row) (s : LineState)
    (n : Node) :
    (stepNode impl row s n).cache = s.cache ∨
    ∃ v d, (stepNode impl row s n).cache
        = ((n.name, resolvedInputs row s.ctx n, n.version), v) :: s.cache
      ∧ lookupCache s.cache (n.name, resolvedInputs row s.ctx n, n.version)
          = none
      ∧ impl n.name (resolvedInputs row s.ctx n) = .success v d
      ∧ n.enableCache = true := by
  unfold stepNode invokeNode
  by_cases hb : shouldBypass row s.ctx n = true
  · exact Or.inl (by simp [hb])
  · simp only [hb, Bool.false_eq_true, if_false]
    by_cases hc : n.enableCache = true
    · simp only [hc, if_true]
      cases hl : lookupCache s.cache
          (n.name, resolvedInputs row s.ctx n, n.version) with
      | some v => exact Or.inl rfl
      | none =>
        cases himpl : impl n.name (resolvedInputs row s.ctx n) with
        | success v d => exact Or.inr ⟨v, d, by simp, rfl, rfl, trivial⟩
        | failure msg d => exact Or.inl rfl
    · simp only [hc, if_false]
      cases himpl : impl n.name (resolvedInputs row s.ctx n) with
      | success v d =>
        have hc2 : n.enableCache = false := Bool.of_not_eq_true hc
        exact Or.inl (by simp [hc2])
      | failure msg d => exact Or.inl rfl

theorem stepNode_calls (impl : Impl) (row : Row) (s : LineState) (n : Node) :
    ∃ tail, (stepNode impl row s n).calls = s.calls ++ tail
      ∧ ∀ e ∈ tail, e.1 = n.name := by
  unfold stepNode invokeNode
  by_cases hb : shouldBypass row s.ctx n = true
  · exact ⟨[], by simp [hb], by simp⟩
  · simp only [hb, Bool.false_eq_true, if_false]
    by_cases hc : n.enableCache = true
    · simp only [hc, if_true]
      cases hl : lookupCache s.cache
          (n.name, resolvedInputs row s.ctx n, n.version) with
      | some v => exact ⟨[], by simp, by simp⟩
      | none =>
        cases himpl : impl n.name (resolvedInputs row s.ctx n) with
        | success v d =>
          exact ⟨[(n.name, resolvedInputs row s.ctx n)], rfl, by simp⟩
        | failure msg d =>
          exact ⟨[(n.name, resolvedInputs row s.ctx n)], rfl, by simp⟩
    · simp only [hc, if_false]
      cases himpl : impl n.name (resolvedInputs row s.ctx n) with
      | success v d =>
        exact ⟨[(n.name, resolvedInputs row s.ctx n)], rfl, by simp⟩
      | failure msg d =>
        exact ⟨[(n.name, resolvedInputs row s.ctx n)], rfl, by simp⟩

theorem runNodes_calls (impl : Impl) (row : Row) :
    ∀ (nodes : List Node) (s : LineState),
      ∃ tail, (runNodes impl row nodes s).calls = s.calls ++ tail
        ∧ ∀ e ∈ tail, e.1 ∈ nodes.map Node.name := by
  intro nodes
  induction nodes with
  | nil => exact fun s => ⟨[], by simp [runNodes], by simp⟩
  | cons n rest ih =>
    intro s
    rcases stepNode_calls impl row s n with ⟨t1, ht1, ht1n⟩
    rcases ih (stepNode impl row s n) with ⟨t2, ht2, ht2n⟩
    refine ⟨t1 ++ t2, ?_, ?_⟩
    · show (runNodes impl row rest (stepNode impl row s n)).calls = _
      rw [ht2, ht1]
      simp
    · intro e he
      rcases List.mem_append.mp he with h1 | h1
      · simp [ht1n e h1]
      · simp only [List.map_cons, List.mem_cons]
        exact Or.inr (ht2n e h1)

/-- Every Cache Entry agrees with what the callable would compute for its
key: spec section 3's content-addressed cache discipline. -/
def CacheCoherent (impl : Impl) (c : List (CacheKey × Value)) : Prop :=
  ∀ k v, lookupCache c k = some v →
    ∃ d, impl k.1 k.2.1 = CallResult.success v d

theorem stepNode_coherent (impl : Impl) (row : Row) (s : LineState) (n : Node)
    (h : CacheCoherent impl s.cache) :
    CacheCoherent impl (stepNode impl row s n).cache := by
  rcases stepNode_cache_cases impl row s n with hsame | ⟨v, d, heq, _, himpl, _⟩
  · rw [hsame]
    exact h
  · rw [heq]
    intro k w hk
    by_cases hkk : ((n.name, resolvedInputs row s.ctx n, n.version) : CacheKey) = k
    · subst hkk
      have hk2 : v = w := by
        simp [lookupCache] at hk
        exact hk
      subst hk2
      exact ⟨d, himpl⟩
    · simp only [lookupCache, if_neg hkk] at hk
      exact h k w hk

theorem runNodes_coherent (impl : Impl) (row : Row) :
    ∀ (nodes : List Node) (s : LineState), CacheCoherent impl s.cache →
      CacheCoherent impl (runNodes impl row nodes s).cache := by
  intro nodes
  induction nodes with
  | nil => exact fun s h => h
  | cons n rest ih =>
    intro s h
    exact ih (stepNode impl row s n) (stepNode_coherent impl row s n h)

theorem stepNode_cache_mono (impl : Impl) (row : Row) (s : LineState)
    (n : Node) :
    ∀ k v, lookupCache s.cache k = some v →
      lookupCache (stepNode impl row s n).cache k = some v := by
  intro k v hkv
  rcases stepNode_cache_cases impl row s n with hsame | ⟨w, d, heq, hmiss, _, _⟩
  · rw [hsame]
    exact hkv
  · rw [heq]
    by_cases hkk : ((n.name, resolvedInputs row s.ctx n, n.version) : CacheKey) = k
    · rw [← hkk] at hkv
      rw [hmiss] at hkv
      exact absurd hkv (by simp)
    · simp only [lookupCache, if_neg hkk]
      exact hkv

theorem runNodes_cache_mono (impl : Impl) (row : Row) :
    ∀ (nodes : List Node) (s : LineState) k v,
      lookupCache s.cache k = some v →
      lookupCache (runNodes impl row nodes s).cache k = some v := by
  intro nodes
  induction nodes with
  | nil => exact fun s k v h => h
  | cons n rest ih =>
    intro s k v h
    exact ih (stepNode impl row s n) k v (stepNode_cache_mono impl row s n k v h)

theorem stepNode_cache_keys (impl : Impl) (row : Row) (s : LineState)
    (n : Node) :
    ∀ k v, lookupCache (stepNode impl row s n).cache k = some v →
      lookupCache s.cache k = some v ∨ k.1 = n.name := by
  intro k v h
  rcases stepNode_cache_cases impl row s n with hsame | ⟨w, d, heq, _, _, _⟩
  · rw [hsame] at h
    exact Or.inl h
  · rw [heq] at h
    by_cases hkk : ((n.name, resolvedInputs row s.ctx n, n.version) : CacheKey) = k
    · right
      rw [← hkk]
    · left
      simpa [lookupCache, hkk] using h

theorem runNodes_cache_keys (impl : Impl) (row : Row) :
    ∀ (nodes : List Node) (s : LineState) k v,
      lookupCache (runNodes impl row nodes s).cache k = some v →
      lookupCache s.cache k = some v ∨ k.1 ∈ nodes.map Node.name := by
  intro nodes
  induction nodes with
  | nil => exact fun s k v h => Or.inl h
  | cons n rest ih =>
    intro s k v h
    rcases ih (stepNode impl row s n) k v h with h1 | h1
    · rcases stepNode_cache_keys impl row s n k v h1 with h2 | h2
      · exact Or.inl h2
      · exact Or.inr (by simp [h2])
    · exact Or.inr (by simp [h1])

/-! ### Reduction lemmas for the three stepNode branches -/

theorem stepNode_bypass_eq (impl : Impl) (row : Row) (s : LineState)
    (n : Node) (hb : shouldBypass row s.ctx n = true) :
    stepNode impl row s n =
      { s with ctx := s.ctx ++
          [(n.name, ⟨.bypassed, .vnull, none, s.clock, s.clock⟩)] } := by
  simp [stepNode, hb]

theorem stepNode_hit_eq (impl : Impl) (row : Row) (s : LineState) (n : Node)
    (v : Value) (hb : shouldBypass row s.ctx n = false)
    (hc : n.enableCache = true)
    (hl : lookupCache s.cache (n.name, resolvedInputs row s.ctx n, n.version)
      = some v) :
    stepNode impl row s n =
      { s with ctx := s.ctx ++
          [(n.name, ⟨.completed, v, none, s.clock, s.clock⟩)] } := by
  simp [stepNode, hb, hc, hl]

theorem stepNode_invoke_eq (impl : Impl) (row : Row) (s : LineState)
    (n : Node) (hb : shouldBypass row s.ctx n = false)
    (hml : n.enableCache = true →
      lookupCache s.cache (n.name, resolvedInputs row s.ctx n, n.version)
        = none) :
    stepNode impl row s n =
      invokeNode impl s n (resolvedInputs row s.ctx n)
        (n.name, resolvedInputs row s.ctx n, n.version) := by
  simp only [stepNode, hb, Bool.false_eq_true, if_false]
  by_cases hc : n.enableCache = true
  · simp only [hc, if_true, hml hc]
  · have hc2 : n.enableCache = false := Bool.of_not_eq_true hc
    simp [hc2]

theorem invokeNode_success_eq (impl : Impl) (s : LineState) (n : Node)
    (args : List (String × Value)) (key : CacheKey) (v : Value) (d : Nat)
    (himpl : impl n.name args = CallResult.success v d) :
    invokeNode impl s n args key =
      { ctx := s.ctx ++ [(n.name, ⟨.completed, v, none, s.clock, s.clock + d⟩)],
        cache := if n.enableCache then (key, v) :: s.cache else s.cache,
        clock := s.clock + d,
        calls := s.calls ++ [(n.name, args)] } := by
  simp [invokeNode, himpl]

theorem invokeNode_failure_eq (impl : Impl) (s : LineState) (n : Node)
    (args : List (String × Value)) (key : CacheKey) (msg : String) (d : Nat)
    (himpl : impl n.name args = CallResult.failure msg d) :
    invokeNode impl s n args key =
      { ctx := s.ctx ++
          [(n.name, ⟨.failed, .vnull, some msg, s.clock, s.clock + d⟩)],
        cache := s.cache,
        clock := s.clock + d,
        calls := s.calls ++ [(n.name, args)] } := by
  simp [invokeNode, himpl]

/-! ### Evaluation depends only on the timing-stripped context -/

theorem strippedCtx_append (c1 c2 : List (String × NodeRecord)) :
    strippedCtx (c1 ++ c2) = strippedCtx c1 ++ strippedCtx c2 := by
  simp [strippedCtx]

theorem mapCongr {α β : Type} (l : List α) (f g : α → β)
    (h : ∀ a ∈ l, f a = g a) : l.map f = l.map g := by
  induction l with
  | nil => rfl
  | cons a t ih =>
    simp only [List.map_cons]
    rw [h a (List.mem_cons_self a t),
      ih (fun x hx => h x (List.mem_cons_of_mem a hx))]

theorem lookupRecord_stripped : ∀ {c1 c2 : List (String × NodeRecord)},
    strippedCtx c1 = strippedCtx c2 → ∀ x,
      Option.map stripRecord (lookupRecord c1 x)
        = Option.map stripRecord (lookupRecord c2 x) := by
  intro c1
  induction c1 with
  | nil =>
    intro c2 h x
    cases c2 with
    | nil => rfl
    | cons q u => simp [strippedCtx] at h
  | cons p t ih =>
    intro c2 h x
    cases c2 with
    | nil => simp [strippedCtx] at h
    | cons q u =>
      obtain ⟨k1, r1⟩ := p
      obtain ⟨k2, r2⟩ := q
      simp only [strippedCtx, List.map_cons, List.cons.injEq,
        Prod.mk.injEq] at h
      obtain ⟨⟨hk, hr⟩, ht⟩ := h
      subst hk
      simp only [lookupRecord]
      by_cases hx : k1 = x
      · simp [hx, hr]
      · simp only [hx, if_false]
        exact ih ht x

theorem resolveBinding_stripped {c1 c2 : List (String × NodeRecord)}
    (h : strippedCtx c1 = strippedCtx c2) (row : Row) (b : Binding) :
    resolveBinding row c1 b = resolveBinding row c2 b := by
  cases b with
  | lit v => rfl
  | flowInput s => rfl
  | nodeOutput s t =>
    have h2 := lookupRecord_stripped h s
    simp only [resolveBinding]
    cases hc1 : lookupRecord c1 s with
    | none =>
      cases hc2 : lookupRecord c2 s with
      | none => rfl
      | some r2 =>
        rw [hc1, hc2] at h2
        simp at h2
    | some r1 =>
      cases hc2 : lookupRecord c2 s with
      | none =>
        rw [hc1, hc2] at h2
        simp at h2
      | some r2 =>
        rw [hc1, hc2] at h2
        have h3 : stripRecord r1 = stripRecord r2 := by simpa using h2
        exact congrArg StrippedRecord.output h3

theorem lookupFailed_stripped {c1 c2 : List (String × NodeRecord)}
    (h : strippedCtx c1 = strippedCtx c2) (s : String) :
    (match lookupRecord c1 s with
     | some r0 => decide (r0.status = NodeStatus.failed)
     | none => false)
    = (match lookupRecord c2 s with
       | some r0 => decide (r0.status = NodeStatus.failed)
       | none => false) := by
  have h2 := lookupRecord_stripped h s
  cases hc1 : lookupRecord c1 s with
  | none =>
    cases hc2 : lookupRecord c2 s with
    | none => rfl
    | some r2 =>
      rw [hc1, hc2] at h2
      simp at h2
  | some r1 =>
    cases hc2 : lookupRecord c2 s with
    | none =>
      rw [hc1, hc2] at h2
      simp at h2
    | some r2 =>
      rw [hc1, hc2] at h2
      have h3 : stripRecord r1 = stripRecord r2 := by simpa using h2
      have h4 : r1.status = r2.status := congrArg StrippedRecord.status h3
      simp [h4]

theorem activationFalse_stripped {c1 c2 : List (String × NodeRecord)}
    (h : strippedCtx c1 = strippedCtx c2) (row : Row) (n : Node) :
    activationFalse row c1 n = activationFalse row c2 n := by
  unfold activationFalse
  cases n.activate with
  | none => rfl
  | some c =>
    show decide (¬ resolveBinding row c1 c.source = c.expected)
      = decide (¬ resolveBinding row c2 c.source = c.expected)
    rw [resolveBinding_stripped h row c.source]

theorem requiredUpstreamFailed_stripped {c1 c2 : List (String × NodeRecord)}
    (h : strippedCtx c1 = strippedCtx c2) (n : Node) :
    requiredUpstreamFailed c1 n = requiredUpstreamFailed c2 n := by
  unfold requiredUpstreamFailed
  apply anyCongr
  intro p _
  cases hp : p.2 with
  | lit v => rfl
  | flowInput s => rfl
  | nodeOutput s t =>
    show (!t && (match lookupRecord c1 s with
      | some r0 => decide (r0.status = NodeStatus.failed)
      | none => false))
      = (!t && (match lookupRecord c2 s with
        | some r0 => decide (r0.status = NodeStatus.failed)
        | none => false))
    rw [lookupFailed_stripped h s]

theorem shouldBypass_stripped {c1 c2 : List (String × NodeRecord)}
    (h : strippedCtx c1 = strippedCtx c2) (row : Row) (n : Node) :
    shouldBypass row c1 n = shouldBypass row c2 n := by
  unfold shouldBypass
  rw [activationFalse_stripped h row n, requiredUpstreamFailed_stripped h n]

theorem resolvedInputs_stripped {c1 c2 : List (String × NodeRecord)}
    (h : strippedCtx c1 = strippedCtx c2) (row : Row) (n : Node) :
    resolvedInputs row c1 n = resolvedInputs row c2 n := by
  unfold resolvedInputs
  apply mapCongr
  intro p _
  rw [resolveBinding_stripped h row p.2]

theorem outputSourceFailed_stripped {c1 c2 : List (String × NodeRecord)}
    (h : strippedCtx c1 = strippedCtx c2) (o : OutputDecl) :
    outputSourceFailed c1 o = outputSourceFailed c2 o := by
  unfold outputSourceFailed
  cases hs : o.source with
  | lit v => rfl
  | flowInput s => rfl
  | nodeOutput s t =>
    show (match lookupRecord c1 s with
      | some r0 => decide (r0.status = NodeStatus.failed)
      | none => false)
      = (match lookupRecord c2 s with
        | some r0 => decide (r0.status = NodeStatus.failed)
        | none => false)
    rw [lookupFailed_stripped h s]

theorem strippedCtx_snoc_eq {c1 c2 : List (String × NodeRecord)}
    (h : strippedCtx c1 = strippedCtx c2) (x : String) (r1 r2 : NodeRecord)
    (hr : stripRecord r1 = stripRecord r2) :
    strippedCtx (c1 ++ [(x, r1)]) = strippedCtx (c2 ++ [(x, r2)]) := by
  rw [strippedCtx_append, strippedCtx_append, h]
  simp [strippedCtx, hr]

/-- The replay relation between a first and a second execution of the same
row: equal timing-stripped contexts, coherent caches on both sides, and the
second cache serving at least every key the first one serves. -/
def ReplayRel (impl : Impl) (s1 s2 : LineState) : Prop :=
  strippedCtx s1.ctx = strippedCtx s2.ctx
  ∧ CacheCoherent impl s1.cache
  ∧ CacheCoherent impl s2.cache
  ∧ ∀ k v, lookupCache s1.cache k = some v → lookupCache s2.cache k = some v

theorem stepNode_replay (impl : Impl) (row : Row) (n : Node)
    {s1 s2 : LineState} (h : ReplayRel impl s1 s2) :
    ReplayRel impl (stepNode impl row s1 n) (stepNode impl row s2 n) := by
  obtain ⟨hctx, hcoh1, hcoh2, hsub⟩ := h
  have hbp := shouldBypass_stripped hctx row n
  have hargs := resolvedInputs_stripped hctx row n
  have hmain : strippedCtx (stepNode impl row s1 n).ctx
        = strippedCtx (stepNode impl row s2 n).ctx
      ∧ ∀ k v, lookupCache (stepNode impl row s1 n).cache k = some v →
          lookupCache (stepNode impl row s2 n).cache k = some v := by
    by_cases hb : shouldBypass row s1.ctx n = true
    · have hb2 : shouldBypass row s2.ctx n = true := by
        rw [← hbp]
        exact hb
      rw [stepNode_bypass_eq impl row s1 n hb,
        stepNode_bypass_eq impl row s2 n hb2]
      exact ⟨strippedCtx_snoc_eq hctx n.name _ _ rfl,
        hsub⟩
    · have hb1f : shouldBypass row s1.ctx n = false := Bool.of_not_eq_true hb
      have hb2f : shouldBypass row s2.ctx n = false := by
        rw [← hbp]
        exact hb1f
      by_cases hc : n.enableCache = true
      · cases hl1 : lookupCache s1.cache
            (n.name, resolvedInputs row s1.ctx n, n.version) with
        | some v0 =>
          have hl2 : lookupCache s2.cache
              (n.name, resolvedInputs row s2.ctx n, n.version) = some v0 := by
            rw [← hargs]
            exact hsub _ _ hl1
          rw [stepNode_hit_eq impl row s1 n v0 hb1f hc hl1,
            stepNode_hit_eq impl row s2 n v0 hb2f hc hl2]
          exact ⟨strippedCtx_snoc_eq hctx n.name _ _ rfl,
            hsub⟩
        | none =>
          have hstep1 := stepNode_invoke_eq impl row s1 n hb1f (fun _ => hl1)
          cases himpl : impl n.name (resolvedInputs row s1.ctx n) with
          | success v d =>
            cases hl2 : lookupCache s2.cache
                (n.name, resolvedInputs row s2.ctx n, n.version) with
            | some v2 =>
              have hv2 : v2 = v := by
                rcases hcoh2 _ _ hl2 with ⟨d2, himpl2⟩
                have himpl3 : impl n.name (resolvedInputs row s2.ctx n)
                    = CallResult.success v2 d2 := himpl2
                rw [← hargs, himpl] at himpl3
                injection himpl3 with hv _
                exact hv.symm
              subst hv2
              rw [hstep1, invokeNode_success_eq impl s1 n _ _ v2 d himpl,
                stepNode_hit_eq impl row s2 n v2 hb2f hc hl2]
              constructor
              · exact strippedCtx_snoc_eq hctx n.name _ _ rfl
              · intro k w hk
                simp only [hc, if_true] at hk
                by_cases hkk :
                    ((n.name, resolvedInputs row s1.ctx n, n.version) :
                      CacheKey) = k
                · rw [← hkk] at hk ⊢
                  simp [lookupCache] at hk
                  rw [hargs, hl2]
                  simp [hk]
                · simp only [lookupCache, if_neg hkk] at hk
                  exact hsub k w hk
            | none =>
              have hstep2 := stepNode_invoke_eq impl row s2 n hb2f
                (fun _ => hl2)
              have himpl2 : impl n.name (resolvedInputs row s2.ctx n)
                  = CallResult.success v d := by
                rw [← hargs]
                exact himpl
              rw [hstep1, hstep2,
                invokeNode_success_eq impl s1 n _ _ v d himpl,
                invokeNode_success_eq impl s2 n _ _ v d himpl2]
              constructor
              · exact strippedCtx_snoc_eq hctx n.name _ _ rfl
              · intro k w hk
                simp only [hc, if_true] at hk ⊢
                by_cases hkk :
                    ((n.name, resolvedInputs row s1.ctx n, n.version) :
                      CacheKey) = k
                · rw [← hkk] at hk ⊢
                  simp [lookupCache] at hk
                  rw [hargs]
                  simp [lookupCache, hk]
                · simp only [lookupCache, if_neg hkk] at hk
                  have hkk2 :
                      ((n.name, resolvedInputs row s2.ctx n, n.version) :
                        CacheKey) ≠ k := by
                    rw [← hargs]
                    exact hkk
                  simp only [lookupCache, if_neg hkk2]
                  exact hsub k w hk
          | failure msg d =>
            have hl2 : lookupCache s2.cache
                (n.name, resolvedInputs row s2.ctx n, n.version) = none := by
              cases hl2c : lookupCache s2.cache
                  (n.name, resolvedInputs row s2.ctx n, n.version) with
              | none => rfl
              | some v2 =>
                rcases hcoh2 _ _ hl2c with ⟨d2, himpl2⟩
                have himpl3 : impl n.name (resolvedInputs row s2.ctx n)
                    = CallResult.success v2 d2 := himpl2
                rw [← hargs, himpl] at himpl3
                exact absurd himpl3 (by simp)
            have hstep2 := stepNode_invoke_eq impl row s2 n hb2f (fun _ => hl2)
            have himpl2 : impl n.name (resolvedInputs row s2.ctx n)
                = CallResult.failure msg d := by
              rw [← hargs]
              exact himpl
            rw [hstep1, hstep2,
              invokeNode_failure_eq impl s1 n _ _ msg d himpl,
              invokeNode_failure_eq impl s2 n _ _ msg d himpl2]
            exact ⟨strippedCtx_snoc_eq hctx n.name _ _ rfl, hsub⟩
      · have hcf : n.enableCache = false := Bool.of_not_eq_true hc
        have hstep1 := stepNode_invoke_eq impl row s1 n hb1f
          (fun hcc => absurd hcc hc)
        have hstep2 := stepNode_invoke_eq impl row s2 n hb2f
          (fun hcc => absurd hcc hc)
        cases himpl : impl n.name (resolvedInputs row s1.ctx n) with
        | success v d =>
          have himpl2 : impl n.name (resolvedInputs row s2.ctx n)
              = CallResult.success v d := by
            rw [← hargs]
            exact himpl
          rw [hstep1, hstep2, invokeNode_success_eq impl s1 n _ _ v d himpl,
            invokeNode_success_eq impl s2 n _ _ v d himpl2]
          constructor
          · exact strippedCtx_snoc_eq hctx n.name _ _ rfl
          · intro k w hk
            simp only [hcf, Bool.false_eq_true, if_false] at hk ⊢
            exact hsub k w hk
        | failure msg d =>
          have himpl2 : impl n.name (resolvedInputs row s2.ctx n)
              = CallResult.failure msg d := by
            rw [← hargs]
            exact himpl
          rw [hstep1, hstep2, invokeNode_failure_eq impl s1 n _ _ msg d himpl,
            invokeNode_failure_eq impl s2 n _ _ msg d himpl2]
          exact ⟨strippedCtx_snoc_eq hctx n.name _ _ rfl,
            hsub⟩
  exact ⟨hmain.1, stepNode_coherent impl row s1 n hcoh1,
    stepNode_coherent impl row s2 n hcoh2, hmain.2⟩

theorem runNodes_replay (impl : Impl) (row : Row) :
    ∀ (nodes : List Node) {s1 s2 : LineState}, ReplayRel impl s1 s2 →
      ReplayRel impl (runNodes impl row nodes s1)
        (runNodes impl row nodes s2) := by
  intro nodes
  induction nodes with
  | nil => exact fun h => h
  | cons n rest ih =>
    intro s1 s2 h
    exact ih (stepNode_replay impl row n h)

theorem stripTiming_congr (nodes : List Node) (outs : List OutputDecl)
    (impl : Impl) (row : Row) (c1 c2 : List (CacheKey × Value)) (t1 t2 : Nat)
    (h : strippedCtx (runNodes impl row nodes (initState c1 t1)).ctx
       = strippedCtx (runNodes impl row nodes (initState c2 t2)).ctx) :
    stripTiming (runLine nodes outs impl row c1 t1).1
      = stripTiming (runLine nodes outs impl row c2 t2).1 := by
  unfold runLine stripTiming
  simp only [StrippedLine.mk.injEq]
  refine ⟨?_, ?_, h⟩
  · have hany : outs.any (fun o => o.required && outputSourceFailed
        (runNodes impl row nodes (initState c1 t1)).ctx o)
      = outs.any (fun o => o.required && outputSourceFailed
        (runNodes impl row nodes (initState c2 t2)).ctx o) := by
      apply anyCongr
      intro o _
      rw [outputSourceFailed_stripped h o]
    rw [hany]
  · apply mapCongr
    intro o _
    rw [resolveBinding_stripped h row o.source]

/-- C3: executing the same row twice with caching enabled and the (pure,
hence side-effect-free) callable yields Line Results identical in every
field except the timing fields; the second run starts from the cache the
first run produced. -/
theorem row_execution_idempotent (nodes : List Node) (outs : List OutputDecl)
    (impl : Impl) (row : Row) (t1 t2 : Nat)
    (hcache : ∀ n ∈ nodes, n.enableCache = true) :
    stripTiming (runLine nodes outs impl row [] t1).1
      = stripTiming (runLine nodes outs impl row
          (runLine nodes outs impl row [] t1).2.cache t2).1 := by
  have hinit : ReplayRel impl (initState [] t1)
      (initState (runLine nodes outs impl row [] t1).2.cache t2) := by
    refine ⟨rfl, ?_, ?_, ?_⟩
    · intro k v hk
      simp [lookupCache, initState] at hk
    · have h0 : CacheCoherent impl
          (initState ([] : List (CacheKey × Value)) t1).cache := by
        intro k v hk
        simp [lookupCache, initState] at hk
      exact runNodes_coherent impl row nodes (initState [] t1) h0
    · intro k v hk
      simp [lookupCache, initState] at hk
  have hrep := runNodes_replay impl row nodes hinit
  exact stripTiming_congr nodes outs impl row []
    (runLine nodes outs impl row [] t1).2.cache t1 t2 hrep.1

/-- A single cache-enabled node for the idempotence witness. -/
def nodeW : Node :=
  { name := ("w"), bindings := [], activate := none,
    enableCache := true, version := 0 }

/-- A constant callable for the idempotence witness. -/
def implW : Impl := fun _ _ => CallResult.success (Value.vnat 1) 1

/-- Witness for C3 at a concrete one-node cached flow. -/
theorem row_execution_idempotent_witness :
    stripTiming (runLine [nodeW] [] implW [] [] 0).1
      = stripTiming (runLine [nodeW] [] implW []
          (runLine [nodeW] [] implW [] [] 0).2.cache 5).1 :=
  row_execution_idempotent [nodeW] [] implW [] 0 5 (by decide)

/-! ### Failure isolation and bypass -/

theorem runNodes_append (impl : Impl) (row : Row) (l1 l2 : List Node)
    (s : LineState) :
    runNodes impl row (l1 ++ l2) s = runNodes impl row l2 (runNodes impl row l1 s) := by
  unfold runNodes
  rw [List.foldl_append]

theorem stepNode_calls_shape (impl : Impl) (row : Row) (s : LineState)
    (p : Node) :
    (stepNode impl row s p).calls = s.calls ∨
    (stepNode impl row s p).calls
      = s.calls ++ [(p.name, resolvedInputs row s.ctx p)] := by
  unfold stepNode invokeNode
  by_cases hb : shouldBypass row s.ctx p = true
  · exact Or.inl (by simp [hb])
  · simp only [hb, Bool.false_eq_true, if_false]
    by_cases hc : p.enableCache = true
    · simp only [hc, if_true]
      cases hl : lookupCache s.cache
          (p.name, resolvedInputs row s.ctx p, p.version) with
      | some v => exact Or.inl rfl
      | none =>
        cases himpl : impl p.name (resolvedInputs row s.ctx p) with
        | success v d => exact Or.inr rfl
        | failure msg d => exact Or.inr rfl
    · simp only [hc, if_false]
      cases himpl : impl p.name (resolvedInputs row s.ctx p) with
      | success v d => exact Or.inr rfl
      | failure msg d => exact Or.inr rfl

theorem runNodes_calls_shape (impl : Impl) (row : Row) :
    ∀ (post : List Node) (s : LineState) (e : String × List (String × Value)),
      e ∈ (runNodes impl row post s).calls →
      e ∈ s.calls ∨ ∃ p, p ∈ post ∧ ∃ cE,
        e = (p.name, resolvedInputs row cE p) ∧ ∃ tail, cE = s.ctx ++ tail := by
  intro post
  induction post with
  | nil => exact fun s e he => Or.inl he
  | cons p rest ih =>
    intro s e he
    have he2 : e ∈ (runNodes impl row rest (stepNode impl row s p)).calls := he
    rcases ih (stepNode impl row s p) e he2 with h1 | ⟨q, hq, cE, he3, tail, ht⟩
    · rcases stepNode_calls_shape impl row s p with hcs | hcs
      · rw [hcs] at h1
        exact Or.inl h1
      · rw [hcs] at h1
        rcases List.mem_append.mp h1 with h2 | h2
        · exact Or.inl h2
        · have he4 : e = (p.name, resolvedInputs row s.ctx p) := by
            simpa using h2
          exact Or.inr ⟨p, List.mem_cons_self p rest, s.ctx, he4, [], by simp⟩
    · rcases stepNode_ctx impl row s p with ⟨rc, hrc⟩
      rw [hrc] at ht
      exact Or.inr ⟨q, List.mem_cons_of_mem p hq, cE, he3,
        (p.name, rc) :: tail, by rw [ht]; simp⟩

/-- C6: when a node's callable raises a recoverable error, the Flow Runner
records status failed with the captured error detail and output None; every
downstream node that is invoked referencing it receives None for that
binding; and the line still produces a record for every node, so the error
never escapes the Flow Runner boundary. -/
theorem node_failure_isolated (nodesPre : List Node) (n : Node)
    (nodesPost : List Node) (outs : List OutputDecl) (impl : Impl)
    (row : Row) (t0 : Nat) (msg : String) (d : Nat)
    (hnd : ((nodesPre ++ n :: nodesPost).map Node.name).Nodup)
    (hnb : shouldBypass row
      (runNodes impl row nodesPre (initState [] t0)).ctx n = false)
    (herr : impl n.name (resolvedInputs row
        (runNodes impl row nodesPre (initState [] t0)).ctx n)
      = CallResult.failure msg d) :
    (∃ rc, lookupRecord
        (runLine (nodesPre ++ n :: nodesPost) outs impl row [] t0).1.records
        n.name = some rc
      ∧ rc.status = NodeStatus.failed ∧ rc.output = Value.vnull
      ∧ rc.errorDetail = some msg)
    ∧ (∀ m ∈ nodesPost, ∀ args,
        (m.name, args) ∈
          (runLine (nodesPre ++ n :: nodesPost) outs impl row [] t0).2.calls →
        ∀ k t, (k, Binding.nodeOutput n.name t) ∈ m.bindings →
          (k, Value.vnull) ∈ args)
    ∧ (∀ m ∈ nodesPre ++ n :: nodesPost, ∃ rc,
        lookupRecord
          (runLine (nodesPre ++ n :: nodesPost) outs impl row [] t0).1.records
          m.name = some rc) := by
  have hndfull := hnd
  have hmapfull : (nodesPre ++ n :: nodesPost).map Node.name
      = nodesPre.map Node.name ++ n.name :: nodesPost.map Node.name := by
    simp
  rw [hmapfull] at hnd
  have hndmid := List.nodup_middle.mp hnd
  rcases List.nodup_cons.mp hndmid with ⟨hnotin, hrest⟩
  have hnotpre : n.name ∉ nodesPre.map Node.name :=
    fun hc => hnotin (List.mem_append_left _ hc)
  have hnotpost : n.name ∉ nodesPost.map Node.name :=
    fun hc => hnotin (List.mem_append_right _ hc)
  have hdisj : List.Disjoint (nodesPre.map Node.name)
      (nodesPost.map Node.name) := (List.nodup_append.mp hrest).2.2
  have hmiss : n.enableCache = true →
      lookupCache (runNodes impl row nodesPre (initState [] t0)).cache
        (n.name, resolvedInputs row
          (runNodes impl row nodesPre (initState [] t0)).ctx n, n.version)
        = none := by
    intro _
    cases hl : lookupCache (runNodes impl row nodesPre (initState [] t0)).cache
        (n.name, resolvedInputs row
          (runNodes impl row nodesPre (initState [] t0)).ctx n, n.version) with
    | none => rfl
    | some v =>
      rcases runNodes_cache_keys impl row nodesPre (initState [] t0) _ v hl
        with h1 | h1
      · simp [lookupCache, initState] at h1
      · exact absurd (by simpa using h1) hnotpre
  have hstepn := stepNode_invoke_eq impl row
    (runNodes impl row nodesPre (initState [] t0)) n hnb hmiss
  have hinv := invokeNode_failure_eq impl
    (runNodes impl row nodesPre (initState [] t0)) n
    (resolvedInputs row (runNodes impl row nodesPre (initState [] t0)).ctx n)
    (n.name, resolvedInputs row
      (runNodes impl row nodesPre (initState [] t0)).ctx n, n.version)
    msg d herr
  have hmid : stepNode impl row (runNodes impl row nodesPre (initState [] t0)) n
      = { ctx := (runNodes impl row nodesPre (initState [] t0)).ctx ++
            [(n.name, ⟨.failed, .vnull, some msg,
              (runNodes impl row nodesPre (initState [] t0)).clock,
              (runNodes impl row nodesPre (initState [] t0)).clock + d⟩)],
          cache := (runNodes impl row nodesPre (initState [] t0)).cache,
          clock := (runNodes impl row nodesPre (initState [] t0)).clock + d,
          calls := (runNodes impl row nodesPre (initState [] t0)).calls ++
            [(n.name, resolvedInputs row
              (runNodes impl row nodesPre (initState [] t0)).ctx n)] } := by
    rw [hstepn, hinv]
  have hfull : runNodes impl row (nodesPre ++ n :: nodesPost) (initState [] t0)
      = runNodes impl row nodesPost
          (stepNode impl row (runNodes impl row nodesPre (initState [] t0)) n) := by
    rw [runNodes_append]
    rfl
  have hprectx : (runNodes impl row nodesPre (initState [] t0)).ctx.map Prod.fst
      = nodesPre.map Node.name := by
    rcases runNodes_ctx impl row nodesPre (initState [] t0) with ⟨tail, ht1, ht2⟩
    rw [ht1]
    simpa [initState] using ht2
  have hprenone : lookupRecord
      (runNodes impl row nodesPre (initState [] t0)).ctx n.name = none := by
    apply lookupRecord_none_of_not_mem
    rw [hprectx]
    exact hnotpre
  have hlookmid : ∀ tail2, lookupRecord
      ((runNodes impl row nodesPre (initState [] t0)).ctx ++
        ([(n.name, ⟨.failed, .vnull, some msg,
          (runNodes impl row nodesPre (initState [] t0)).clock,
          (runNodes impl row nodesPre (initState [] t0)).clock + d⟩)] ++ tail2))
      n.name = some ⟨.failed, .vnull, some msg,
        (runNodes impl row nodesPre (initState [] t0)).clock,
        (runNodes impl row nodesPre (initState [] t0)).clock + d⟩ := by
    intro tail2
    rw [lookupRecord_append_right _ hprenone]
    simp [lookupRecord]
  refine ⟨?_, ?_, ?_⟩
  · rcases runNodes_ctx impl row nodesPost
        (stepNode impl row (runNodes impl row nodesPre (initState [] t0)) n)
      with ⟨tailP, htP1, _⟩
    refine ⟨⟨.failed, .vnull, some msg,
      (runNodes impl row nodesPre (initState [] t0)).clock,
      (runNodes impl row nodesPre (initState [] t0)).clock + d⟩, ?_, rfl, rfl, rfl⟩
    show lookupRecord (runNodes impl row (nodesPre ++ n :: nodesPost)
      (initState [] t0)).ctx n.name = _
    rw [hfull, htP1, hmid]
    dsimp only
    rw [List.append_assoc]
    exact hlookmid tailP
  · intro m hm args hargs k t hkt
    have hargs2 : (m.name, args) ∈ (runNodes impl row
        (nodesPre ++ n :: nodesPost) (initState [] t0)).calls := hargs
    rw [hfull] at hargs2
    rcases runNodes_calls_shape impl row nodesPost _ _ hargs2
      with h1 | ⟨p, hp, cE, he3, tail, htail⟩
    · rw [hmid] at h1
      rcases List.mem_append.mp h1 with h2 | h2
      · rcases runNodes_calls impl row nodesPre (initState [] t0)
          with ⟨tailC, htC1, htC2⟩
        rw [htC1] at h2
        rcases List.mem_append.mp h2 with h3 | h3
        · simp [initState] at h3
        · have h4 : m.name ∈ nodesPre.map Node.name := htC2 _ h3
          exact absurd h4 (fun hc => hdisj hc (List.mem_map.mpr ⟨m, hm, rfl⟩))
      · have h4 : m.name = n.name := by
          have h5 : (m.name, args)
              = (n.name, resolvedInputs row
                  (runNodes impl row nodesPre (initState [] t0)).ctx n) := by
            simpa using h2
          exact congrArg Prod.fst h5
        exact absurd (h4 ▸ List.mem_map.mpr ⟨m, hm, rfl⟩) hnotpost
    · have hmp : m = p := by
        have hname : m.name = p.name := congrArg Prod.fst he3
        have hnd2 : ((nodesPre ++ n :: nodesPost).map
            (fun nn => nn.name)).Nodup := hndfull
        apply List.inj_on_of_nodup_map hnd2
        · exact List.mem_append_right _ (List.mem_cons_of_mem n hm)
        · exact List.mem_append_right _ (List.mem_cons_of_mem n hp)
        · exact hname
      subst hmp
      have hargseq : args = resolvedInputs row cE m := by
        have := congrArg Prod.snd he3
        simpa using this
      rw [hmid] at htail
      have hlook : lookupRecord cE n.name = some ⟨.failed, .vnull, some msg,
          (runNodes impl row nodesPre (initState [] t0)).clock,
          (runNodes impl row nodesPre (initState [] t0)).clock + d⟩ := by
        rw [htail]
        dsimp only
        rw [List.append_assoc]
        exact hlookmid tail
      rw [hargseq]
      have hval : resolveBinding row cE (Binding.nodeOutput n.name t)
          = Value.vnull := by
        simp only [resolveBinding, hlook]
      have hmem : ((k, Binding.nodeOutput n.name t).1,
          resolveBinding row cE (k, Binding.nodeOutput n.name t).2)
          ∈ resolvedInputs row cE m :=
        List.mem_map.mpr ⟨(k, Binding.nodeOutput n.name t), hkt, rfl⟩
      simpa [hval] using hmem
  · intro m hm
    apply lookupRecord_isSome_of_mem
    rcases runNodes_ctx impl row (nodesPre ++ n :: nodesPost) (initState [] t0)
      with ⟨tail, ht1, ht2⟩
    show m.name ∈ (runNodes impl row (nodesPre ++ n :: nodesPost)
      (initState [] t0)).ctx.map Prod.fst
    rw [ht1]
    have hsimp : ((initState ([] : List (CacheKey × Value)) t0).ctx
        ++ tail).map Prod.fst = tail.map Prod.fst := by
      simp [initState]
    rw [hsimp, ht2]
    exact List.mem_map.mpr ⟨m, hm, rfl⟩

/-- A node whose callable reports a recoverable failure, for the witness. -/
def nodeF : Node :=
  { name := ("f"), bindings := [], activate := none,
    enableCache := false, version := 0 }

/-- A downstream node referencing the failing node through a
failure-tolerant binding, for the witness. -/
def nodeG : Node :=
  { name := ("g"), bindings := [(("in"), Binding.nodeOutput ("f") true)],
    activate := none, enableCache := false, version := 0 }

/-- A callable failing on node f and succeeding elsewhere, for the witness. -/
def implFG : Impl := fun nm _ =>
  if nm = ("f") then CallResult.failure ("boom") 1
  else CallResult.success (Value.vnat 2) 1

/-- Witness for C6 at a concrete two-node flow where f fails recoverably
and g references it. -/
theorem node_failure_isolated_witness :
    (∃ rc, lookupRecord
        (runLine ([] ++ nodeF :: [nodeG]) [] implFG [] [] 0).1.records
        nodeF.name = some rc
      ∧ rc.status = NodeStatus.failed ∧ rc.output = Value.vnull
      ∧ rc.errorDetail = some ("boom"))
    ∧ (∀ m ∈ [nodeG], ∀ args,
        (m.name, args) ∈
          (runLine ([] ++ nodeF :: [nodeG]) [] implFG [] [] 0).2.calls →
        ∀ k t, (k, Binding.nodeOutput nodeF.name t) ∈ m.bindings →
          (k, Value.vnull) ∈ args)
    ∧ (∀ m ∈ [] ++ nodeF :: [nodeG], ∃ rc,
        lookupRecord
          (runLine ([] ++ nodeF :: [nodeG]) [] implFG [] [] 0).1.records
          m.name = some rc) :=
  node_failure_isolated [] nodeF [nodeG] [] implFG [] 0 ("boom") 1
    (by decide) (by decide) (by decide)

/-- C8: a node whose activation condition evaluates false, or whose
required upstream failed without a failure-tolerant binding, is recorded
as bypassed with output None and its callable is never invoked. -/
theorem node_bypassed_not_invoked (nodesPre : List Node) (n : Node)
    (nodesPost : List Node) (outs : List OutputDecl) (impl : Impl)
    (row : Row) (t0 : Nat)
    (hnd : ((nodesPre ++ n :: nodesPost).map Node.name).Nodup)
    (hbp : activationFalse row
        (runNodes impl row nodesPre (initState [] t0)).ctx n = true
      ∨ requiredUpstreamFailed
        (runNodes impl row nodesPre (initState [] t0)).ctx n = true) :
    (∃ rc, lookupRecord
        (runLine (nodesPre ++ n :: nodesPost) outs impl row [] t0).1.records
        n.name = some rc
      ∧ rc.status = NodeStatus.bypassed ∧ rc.output = Value.vnull)
    ∧ (∀ args, (n.name, args) ∉
        (runLine (nodesPre ++ n :: nodesPost) outs impl row [] t0).2.calls) := by
  have hmapfull : (nodesPre ++ n :: nodesPost).map Node.name
      = nodesPre.map Node.name ++ n.name :: nodesPost.map Node.name := by
    simp
  rw [hmapfull] at hnd
  have hndmid := List.nodup_middle.mp hnd
  rcases List.nodup_cons.mp hndmid with ⟨hnotin, _⟩
  have hnotpre : n.name ∉ nodesPre.map Node.name :=
    fun hc => hnotin (List.mem_append_left _ hc)
  have hnotpost : n.name ∉ nodesPost.map Node.name :=
    fun hc => hnotin (List.mem_append_right _ hc)
  have hb : shouldBypass row
      (runNodes impl row nodesPre (initState [] t0)).ctx n = true := by
    unfold shouldBypass
    rcases hbp with h1 | h1
    · simp [h1]
    · simp [h1]
  have hmid := stepNode_bypass_eq impl row
    (runNodes impl row nodesPre (initState [] t0)) n hb
  have hfull : runNodes impl row (nodesPre ++ n :: nodesPost) (initState [] t0)
      = runNodes impl row nodesPost
          (stepNode impl row (runNodes impl row nodesPre (initState [] t0)) n) := by
    rw [runNodes_append]
    rfl
  have hprectx : (runNodes impl row nodesPre (initState [] t0)).ctx.map Prod.fst
      = nodesPre.map Node.name := by
    rcases runNodes_ctx impl row nodesPre (initState [] t0) with ⟨tail, ht1, ht2⟩
    rw [ht1]
    simpa [initState] using ht2
  have hprenone : lookupRecord
      (runNodes impl row nodesPre (initState [] t0)).ctx n.name = none := by
    apply lookupRecord_none_of_not_mem
    rw [hprectx]
    exact hnotpre
  constructor
  · rcases runNodes_ctx impl row nodesPost
        (stepNode impl row (runNodes impl row nodesPre (initState [] t0)) n)
      with ⟨tailP, htP1, _⟩
    refine ⟨⟨.bypassed, .vnull, none,
      (runNodes impl row nodesPre (initState [] t0)).clock,
      (runNodes impl row nodesPre (initState [] t0)).clock⟩, ?_, rfl, rfl⟩
    show lookupRecord (runNodes impl row (nodesPre ++ n :: nodesPost)
      (initState [] t0)).ctx n.name = _
    rw [hfull, htP1, hmid]
    dsimp only
    rw [List.append_assoc]
    rw [lookupRecord_append_right _ hprenone]
    simp [lookupRecord]
  · intro args hargs
    have hargs2 : (n.name, args) ∈ (runNodes impl row
        (nodesPre ++ n :: nodesPost) (initState [] t0)).calls := hargs
    rw [hfull] at hargs2
    rcases runNodes_calls impl row nodesPost _ with ⟨tailP, htP1, htP2⟩
    rw [htP1] at hargs2
    rcases List.mem_append.mp hargs2 with h1 | h1
    · rw [hmid] at h1
      have h2 : (n.name, args) ∈
          (runNodes impl row nodesPre (initState [] t0)).calls := h1
      rcases runNodes_calls impl row nodesPre (initState [] t0)
        with ⟨tailC, htC1, htC2⟩
      rw [htC1] at h2
      rcases List.mem_append.mp h2 with h3 | h3
      · simp [initState] at h3
      · exact absurd (htC2 _ h3) hnotpre
    · exact absurd (htP2 _ h1) hnotpost

/-- A node with an activation condition that evaluates false, for the
bypass witness. -/
def nodeH : Node :=
  { name := ("h"), bindings := [],
    activate := some ⟨Binding.lit (Value.vbool false), Value.vbool true⟩,
    enableCache := false, version := 0 }

/-- Witness for C8 at a concrete flow whose single node has a false
activation condition. -/
theorem node_bypassed_not_invoked_witness :
    (∃ rc, lookupRecord
        (runLine ([] ++ nodeH :: []) [] implFG [] [] 0).1.records
        nodeH.name = some rc
      ∧ rc.status = NodeStatus.bypassed ∧ rc.output = Value.vnull)
    ∧ (∀ args, (nodeH.name, args) ∉
        (runLine ([] ++ nodeH :: []) [] implFG [] [] 0).2.calls) :=
  node_bypassed_not_invoked [] nodeH [] [] implFG [] 0 (by decide)
    (Or.inl (by decide))

/-! ## Batch Scheduler

Modelled from the spec (section 4.4): a bounded worker pool dispatches rows
in input order, completions happen in an adversary-chosen order, transient
row failures are retried sequentially on the same worker up to
`max_retries` times, and a cooperative cancellation flag stops dispatch of
new rows while running rows finish. The per-row execution is abstracted as
a function from row index to Line Result (one Flow Runner instance per
row, isolated from the others). -/

/-- The scheduler's tunables (spec section 4.4). -/
structure BatchConfig where
  concurrency : Nat
  maxRetries : Nat
deriving DecidableEq, Repr

/-- A row currently held by a worker, with its 0-based attempt number. -/
structure RunningEntry where
  row : Nat
  attempt : Nat
deriving DecidableEq, Repr

/-- Observable scheduler events: row dispatch, sequential per-row retry,
row completion, and the cancellation signal. -/
inductive Event
  | dispatchEv (row : Nat)
  | retryEv (row : Nat)
  | finishEv (row : Nat)
  | cancelEv
deriving DecidableEq, Repr

/-- The scheduler state: next undispatched row, the worker pool, the
finished rows in completion order, the cancellation flag, and the event
trace. -/
structure BatchState where
  nextRow : Nat
  running : List RunningEntry
  finished : List (Nat × LineResult)
  canceled : Bool
  events : List Event

/-- One adversary choice: dispatch the next row, complete the running row
selected by `pick`, or raise the cancellation signal. -/
inductive Choice
  | dispatch
  | complete (pick : Nat)
  | cancel
deriving DecidableEq, Repr

def initBatch : BatchState := ⟨0, [], [], false, []⟩

/-- Modelled from the spec: one scheduler transition. Dispatch only happens
when not canceled, a worker is free and rows remain; completing a row whose
result is transient with attempts left re-runs it on the same worker with
the same inputs, otherwise the row's result is recorded (spec section 4.4). -/
def applyChoice (cfg : BatchConfig) (numRows : Nat) (runRow : Nat → LineResult)
    (transientP : LineResult → Bool) (s : BatchState) (c : Choice) :
    BatchState :=
  match c with
  | .cancel => { s with canceled := true, events := s.events ++ [.cancelEv] }
  | .dispatch =>
    if s.canceled = false ∧ s.running.length < cfg.concurrency
        ∧ s.nextRow < numRows then
      { s with
        nextRow := s.nextRow + 1,
        running := s.running ++ [⟨s.nextRow, 0⟩],
        events := s.events ++ [.dispatchEv s.nextRow] }
    else s
  | .complete pick =>
    match s.running with
    | [] => s
    | e0 :: rest =>
      let idx := pick % (e0 :: rest).length
      let e := (e0 :: rest).getD idx e0
      let res := runRow e.row
      if transientP res = true ∧ e.attempt < cfg.maxRetries then
        { s with
          running := (e0 :: rest).take idx ++
            ⟨e.row, e.attempt + 1⟩ :: (e0 :: rest).drop (idx + 1),
          events := s.events ++ [.retryEv e.row] }
      else
        { s with
          running := (e0 :: rest).take idx ++ (e0 :: rest).drop (idx + 1),
          finished := s.finished ++ [(e.row, res)],
          events := s.events ++ [.finishEv e.row] }

def applyChoices (cfg : BatchConfig) (numRows : Nat) (runRow : Nat → LineResult)
    (transientP : LineResult → Bool) : List Choice → BatchState → BatchState
  | [], s => s
  | c :: cs, s =>
    applyChoices cfg numRows runRow transientP cs
      (applyChoice cfg numRows runRow transientP s c)

/-- The engine can dispatch a new row: not canceled, a worker is free, and
undispatched rows remain. -/
def canDispatch (cfg : BatchConfig) (numRows : Nat) (s : BatchState) : Bool :=
  decide (s.canceled = false ∧ s.running.length < cfg.concurrency
    ∧ s.nextRow < numRows)

/-- Modelled from the spec: after the adversary's interleaving is
exhausted, the scheduler runs on deterministically until no work remains:
dispatch while possible, otherwise complete the first running row. -/
def drain (cfg : BatchConfig) (numRows : Nat) (runRow : Nat → LineResult)
    (transientP : LineResult → Bool) : Nat → BatchState → BatchState
  | 0, s => s
  | fuel + 1, s =>
    if canDispatch cfg numRows s = true then
      drain cfg numRows runRow transientP fuel
        (applyChoice cfg numRows runRow transientP s .dispatch)
    else if s.running.isEmpty = false then
      drain cfg numRows runRow transientP fuel
        (applyChoice cfg numRows runRow transientP s (.complete 0))
    else s

/-- Remaining work of one running entry: allowed further attempts plus one. -/
def entWeight (cfg : BatchConfig) (e : RunningEntry) : Nat :=
  cfg.maxRetries + 1 - e.attempt

/-- Termination measure of the scheduler. -/
def measureB (cfg : BatchConfig) (numRows : Nat) (s : BatchState) : Nat :=
  (numRows - s.nextRow) * (cfg.maxRetries + 2)
    + (s.running.map (entWeight cfg)).sum

/-- The scheduler state after the adversary schedule and the drain phase. -/
def finalState (cfg : BatchConfig) (numRows : Nat) (runRow : Nat → LineResult)
    (transientP : LineResult → Bool) (sched : List Choice) : BatchState :=
  drain cfg numRows runRow transientP
    (measureB cfg numRows
      (applyChoices cfg numRows runRow transientP sched initBatch))
    (applyChoices cfg numRows runRow transientP sched initBatch)

def lookupFinished : List (Nat × LineResult) → Nat → Option LineResult
  | [], _ => none
  | (i, r) :: rest, j => if i = j then some r else lookupFinished rest j

inductive BatchStatus
  | completedB
  | canceledB
deriving DecidableEq, Repr

/-- Modelled from the spec: the Batch Result — one Line Result slot per
input row in input-row order, and the overall status (spec section 3). -/
structure BatchResult where
  lines : List (Option LineResult)
  status : BatchStatus

def batchResultOf (cfg : BatchConfig) (numRows : Nat)
    (runRow : Nat → LineResult) (transientP : LineResult → Bool)
    (sched : List Choice) : BatchResult :=
  { lines := (List.range numRows).map
      (lookupFinished
        (finalState cfg numRows runRow transientP sched).finished),
    status :=
      if (finalState cfg numRows runRow transientP sched).canceled then
        .canceledB
      else .completedB }

/-- The Flow Runner instance the Batch Scheduler runs for row `i`: one full
line over the resolved node list on that row's inputs, with a fresh
Execution Context (per-row isolation, spec section 4.4). -/
def lineOf (nodes : List Node) (outs : List OutputDecl) (impl : Impl)
    (rows : List Row) (i : Nat) : LineResult :=
  (runLine nodes outs impl (rows.getD i []) [] 0).1

/-- Number of attempts of row `i` recorded in the event trace: its dispatch
plus its retries. -/
def countAttempts : List Event → Nat → Nat
  | [], _ => 0
  | ev :: rest, i =>
    (if ev = Event.dispatchEv i ∨ ev = Event.retryEv i then 1 else 0)
      + countAttempts rest i

/-! ### Scheduler invariant -/

theorem countAttempts_append (l1 l2 : List Event) (i : Nat) :
    countAttempts (l1 ++ l2) i = countAttempts l1 i + countAttempts l2 i := by
  induction l1 with
  | nil => simp [countAttempts]
  | cons ev rest ih =>
    show (if ev = Event.dispatchEv i ∨ ev = Event.retryEv i then 1 else 0)
        + countAttempts (rest ++ l2) i
      = ((if ev = Event.dispatchEv i ∨ ev = Event.retryEv i then 1 else 0)
        + countAttempts rest i) + countAttempts l2 i
    rw [ih]
    omega

theorem snoc_eq_append_cons {α : Type} (l l1 l2 : List α) (a b : α)
    (h : l ++ [a] = l1 ++ b :: l2) :
    (∃ l3, l = l1 ++ b :: l3 ∧ l2 = l3 ++ [a])
    ∨ (a = b ∧ l1 = l ∧ l2 = []) := by
  rcases List.append_eq_append_iff.mp h with ⟨a2, h1, h2⟩ | ⟨c2, h1, h2⟩
  · cases a2 with
    | nil =>
      simp only [List.nil_append] at h2
      injection h2 with hx hy
      exact Or.inr ⟨hx, by simp [h1], hy.symm⟩
    | cons x a3 =>
      exfalso
      have hlen := congrArg List.length h2
      simp only [List.length_cons, List.length_append, List.length_nil] at hlen
      omega
  · cases c2 with
    | nil =>
      simp only [List.nil_append] at h2
      injection h2 with hx hy
      refine Or.inr ⟨hx.symm, ?_, hy⟩
      simpa using h1.symm
    | cons y c3 =>
      simp only [List.cons_append] at h2
      injection h2 with hy hrest
      exact Or.inl ⟨c3, by rw [h1, hy], hrest⟩

theorem list_decomp {α : Type} (l : List α) (d : α) (idx : Nat)
    (h : idx < l.length) :
    l = l.take idx ++ l.getD idx d :: l.drop (idx + 1) := by
  rw [List.getD_eq_getElem l d h]
  conv_lhs => rw [← List.take_append_drop idx l]
  rw [List.drop_eq_getElem_cons h]

/-- Modelled from the spec: all structural facts the scheduler maintains —
dispatch order, at most `concurrency` workers, attempt bounds, one
recorded result per finished row computed by the abstracted Flow Runner,
attempt counts in the trace, and no dispatch after cancellation. -/
structure BatchInv (cfg : BatchConfig) (numRows : Nat)
    (runRow : Nat → LineResult) (s : BatchState) : Prop where
  next_le : s.nextRow ≤ numRows
  conc : s.running.length ≤ cfg.concurrency
  run_lt : ∀ e ∈ s.running, e.row < s.nextRow
  att_le : ∀ e ∈ s.running, e.attempt ≤ cfg.maxRetries
  run_nodup : (s.running.map RunningEntry.row).Nodup
  fin_nodup : (s.finished.map Prod.fst).Nodup
  disj : ∀ e ∈ s.running, ∀ p ∈ s.finished, e.row ≠ p.1
  cover : ∀ i, i < s.nextRow →
    (∃ e ∈ s.running, e.row = i) ∨ ∃ p ∈ s.finished, p.1 = i
  fin_val : ∀ p ∈ s.finished, p.2 = runRow p.1
  fin_lt : ∀ p ∈ s.finished, p.1 < s.nextRow
  ev_run : ∀ e ∈ s.running, countAttempts s.events e.row = e.attempt + 1
  ev_all : ∀ i, countAttempts s.events i ≤ cfg.maxRetries + 1
  ev_new : ∀ i, s.nextRow ≤ i → countAttempts s.events i = 0
  canc_ev : s.canceled = false → Event.cancelEv ∉ s.events
  no_disp : ∀ l1 l2, s.events = l1 ++ Event.cancelEv :: l2 →
    ∀ i, Event.dispatchEv i ∉ l2

theorem initBatch_inv (cfg : BatchConfig) (numRows : Nat)
    (runRow : Nat → LineResult) : BatchInv cfg numRows runRow initBatch := by
  refine ⟨?_, ?_, ?_, ?_, ?_, ?_, ?_, ?_, ?_, ?_, ?_, ?_, ?_, ?_, ?_⟩
  · simp [initBatch]
  · simp [initBatch]
  · simp [initBatch]
  · simp [initBatch]
  · simp [initBatch]
  · simp [initBatch]
  · simp [initBatch]
  · simp [initBatch]
  · simp [initBatch]
  · simp [initBatch]
  · simp [initBatch]
  · intro i
    simp [initBatch, countAttempts]
  · intro i _
    simp [initBatch, countAttempts]
  · intro _
    simp [initBatch]
  · intro l1 l2 h i
    exfalso
    have hlen := congrArg List.length h
    simp only [initBatch, List.length_nil, List.length_append,
      List.length_cons] at hlen
    omega

theorem countAttempts_cancel (i : Nat) :
    countAttempts [Event.cancelEv] i = 0 := by
  simp [countAttempts]

theorem countAttempts_finish (r i : Nat) :
    countAttempts [Event.finishEv r] i = 0 := by
  simp [countAttempts]

theorem countAttempts_dispatch (r i : Nat) :
    countAttempts [Event.dispatchEv r] i = if r = i then 1 else 0 := by
  by_cases hri : r = i
  · subst hri
    simp [countAttempts]
  · simp [countAttempts, hri]

theorem countAttempts_retry (r i : Nat) :
    countAttempts [Event.retryEv r] i = if r = i then 1 else 0 := by
  by_cases hri : r = i
  · subst hri
    simp [countAttempts]
  · simp [countAttempts, hri]

theorem applyChoice_cancel_inv (cfg : BatchConfig) (numRows : Nat)
    (runRow : Nat → LineResult) (transientP : LineResult → Bool)
    {s : BatchState} (h : BatchInv cfg numRows runRow s) :
    BatchInv cfg numRows runRow
      (applyChoice cfg numRows runRow transientP s .cancel) := by
  refine ⟨h.next_le, h.conc, h.run_lt, h.att_le, h.run_nodup, h.fin_nodup,
    h.disj, h.cover, h.fin_val, h.fin_lt, ?_, ?_, ?_, ?_, ?_⟩
  · intro e he
    show countAttempts (s.events ++ [Event.cancelEv]) e.row = e.attempt + 1
    rw [countAttempts_append, countAttempts_cancel]
    simpa using h.ev_run e he
  · intro i
    show countAttempts (s.events ++ [Event.cancelEv]) i ≤ cfg.maxRetries + 1
    rw [countAttempts_append, countAttempts_cancel]
    simpa using h.ev_all i
  · intro i hi
    show countAttempts (s.events ++ [Event.cancelEv]) i = 0
    rw [countAttempts_append, countAttempts_cancel]
    simpa using h.ev_new i hi
  · intro hc
    simp [applyChoice] at hc
  · intro l1 l2 hsplit i hmem
    have hsplit2 : s.events ++ [Event.cancelEv]
        = l1 ++ Event.cancelEv :: l2 := hsplit
    rcases snoc_eq_append_cons _ _ _ _ _ hsplit2 with ⟨l3, h1, h2⟩ | ⟨_, _, h3⟩
    · rw [h2] at hmem
      rcases List.mem_append.mp hmem with h4 | h4
      · exact h.no_disp l1 l3 h1 i h4
      · simp at h4
    · rw [h3] at hmem
      simp at hmem

theorem applyChoice_dispatch_inv (cfg : BatchConfig) (numRows : Nat)
    (runRow : Nat → LineResult) (transientP : LineResult → Bool)
    {s : BatchState} (h : BatchInv cfg numRows runRow s) :
    BatchInv cfg numRows runRow
      (applyChoice cfg numRows runRow transientP s .dispatch) := by
  by_cases hg : s.canceled = false ∧ s.running.length < cfg.concurrency
      ∧ s.nextRow < numRows
  · have happ : applyChoice cfg numRows runRow transientP s .dispatch
        = { s with
            nextRow := s.nextRow + 1,
            running := s.running ++ [⟨s.nextRow, 0⟩],
            events := s.events ++ [.dispatchEv s.nextRow] } := by
      simp [applyChoice, hg]
    rw [happ]
    obtain ⟨hg1, hg2, hg3⟩ := hg
    refine ⟨?_, ?_, ?_, ?_, ?_, h.fin_nodup, ?_, ?_, h.fin_val, ?_, ?_, ?_,
      ?_, ?_, ?_⟩
    · show s.nextRow + 1 ≤ numRows
      omega
    · show (s.running ++ [(⟨s.nextRow, 0⟩ : RunningEntry)]).length
        ≤ cfg.concurrency
      simp only [List.length_append, List.length_cons, List.length_nil]
      omega
    · intro e he
      rcases List.mem_append.mp he with h1 | h1
      · have := h.run_lt e h1
        show e.row < s.nextRow + 1
        omega
      · have he2 : e = (⟨s.nextRow, 0⟩ : RunningEntry) := by simpa using h1
        subst he2
        show s.nextRow < s.nextRow + 1
        omega
    · intro e he
      rcases List.mem_append.mp he with h1 | h1
      · exact h.att_le e h1
      · have he2 : e = (⟨s.nextRow, 0⟩ : RunningEntry) := by simpa using h1
        subst he2
        show 0 ≤ cfg.maxRetries
        omega
    · show ((s.running ++ [(⟨s.nextRow, 0⟩ : RunningEntry)]).map
        RunningEntry.row).Nodup
      rw [List.map_append]
      rw [List.nodup_append]
      refine ⟨h.run_nodup, by simp, ?_⟩
      intro x hx
      rcases List.mem_map.mp hx with ⟨e, he, hex⟩
      have := h.run_lt e he
      simp only [List.map_cons, List.map_nil, List.mem_singleton]
      intro hc
      rw [hc] at hex
      omega
    · intro e he p hp
      rcases List.mem_append.mp he with h1 | h1
      · exact h.disj e h1 p hp
      · have he2 : e = (⟨s.nextRow, 0⟩ : RunningEntry) := by simpa using h1
        subst he2
        have := h.fin_lt p hp
        show s.nextRow ≠ p.1
        omega
    · intro i hi
      show (∃ e ∈ s.running ++ [(⟨s.nextRow, 0⟩ : RunningEntry)], e.row = i) ∨
        ∃ p ∈ s.finished, p.1 = i
      by_cases hlt : i < s.nextRow
      · rcases h.cover i hlt with ⟨e, he, hei⟩ | hfin
        · exact Or.inl ⟨e, List.mem_append_left _ he, hei⟩
        · exact Or.inr hfin
      · have hieq : i = s.nextRow := by
          have hi2 : i < s.nextRow + 1 := hi
          omega
        exact Or.inl ⟨⟨s.nextRow, 0⟩, List.mem_append_right _ (by simp),
          hieq.symm⟩
    · intro p hp
      have := h.fin_lt p hp
      show p.1 < s.nextRow + 1
      omega
    · intro e he
      show countAttempts (s.events ++ [Event.dispatchEv s.nextRow]) e.row
        = e.attempt + 1
      rw [countAttempts_append, countAttempts_dispatch]
      rcases List.mem_append.mp he with h1 | h1
      · have hlt := h.run_lt e h1
        have hne : ¬ s.nextRow = e.row := by omega
        rw [if_neg hne]
        simpa using h.ev_run e h1
      · have he2 : e = (⟨s.nextRow, 0⟩ : RunningEntry) := by simpa using h1
        subst he2
        show countAttempts s.events s.nextRow
          + (if s.nextRow = s.nextRow then 1 else 0) = 0 + 1
        rw [if_pos rfl, h.ev_new s.nextRow (Nat.le_refl _)]
    · intro i
      show countAttempts (s.events ++ [Event.dispatchEv s.nextRow]) i
        ≤ cfg.maxRetries + 1
      rw [countAttempts_append, countAttempts_dispatch]
      by_cases hni : s.nextRow = i
      · rw [if_pos hni]
        rw [← hni, h.ev_new s.nextRow (Nat.le_refl _)]
        omega
      · rw [if_neg hni]
        have := h.ev_all i
        omega
    · intro i hi
      have hi2 : s.nextRow + 1 ≤ i := hi
      show countAttempts (s.events ++ [Event.dispatchEv s.nextRow]) i = 0
      rw [countAttempts_append, countAttempts_dispatch]
      have hle : s.nextRow ≤ i := by omega
      have hne : ¬ s.nextRow = i := by omega
      rw [if_neg hne, h.ev_new i hle]
    · intro hc
      have hc2 : s.canceled = false := hc
      intro hmem
      rcases List.mem_append.mp hmem with h1 | h1
      · exact h.canc_ev hc2 h1
      · simp at h1
    · intro l1 l2 hsplit i hmem
      have hsplit2 : s.events ++ [Event.dispatchEv s.nextRow]
          = l1 ++ Event.cancelEv :: l2 := hsplit
      rcases snoc_eq_append_cons _ _ _ _ _ hsplit2
        with ⟨l3, h1, _⟩ | ⟨h3, _, _⟩
      · exfalso
        apply h.canc_ev hg1
        rw [h1]
        exact List.mem_append_right _ (List.mem_cons_self _ _)
      · exact absurd h3 (by simp)
  · have happ : applyChoice cfg numRows runRow transientP s .dispatch = s := by
      simp [applyChoice, hg]
    rw [happ]
    exact h

theorem inv_retry (cfg : BatchConfig) (numRows : Nat)
    (runRow : Nat → LineResult) {s : BatchState}
    (h : BatchInv cfg numRows runRow s) (A B : List RunningEntry)
    (e : RunningEntry) (hrun : s.running = A ++ e :: B)
    (hatt : e.attempt < cfg.maxRetries) :
    BatchInv cfg numRows runRow
      { s with
        running := A ++ ⟨e.row, e.attempt + 1⟩ :: B,
        events := s.events ++ [.retryEv e.row] } := by
  have he_mem : e ∈ s.running := by
    rw [hrun]
    exact List.mem_append_right _ (List.mem_cons_self _ _)
  have hA_sub : ∀ x ∈ A, x ∈ s.running := by
    intro x hx
    rw [hrun]
    exact List.mem_append_left _ hx
  have hB_sub : ∀ x ∈ B, x ∈ s.running := by
    intro x hx
    rw [hrun]
    exact List.mem_append_right _ (List.mem_cons_of_mem _ hx)
  have hnodup2 : (A.map RunningEntry.row
      ++ e.row :: B.map RunningEntry.row).Nodup := by
    have h2 := h.run_nodup
    rw [hrun] at h2
    simpa using h2
  have h3 := List.nodup_middle.mp hnodup2
  rcases List.nodup_cons.mp h3 with ⟨hrow_notin, _⟩
  have hrow_ne : ∀ x : RunningEntry, x ∈ A ∨ x ∈ B → x.row ≠ e.row := by
    intro x hx hc
    apply hrow_notin
    rcases hx with h1 | h1
    · exact List.mem_append_left _ (hc ▸ List.mem_map.mpr ⟨x, h1, rfl⟩)
    · exact List.mem_append_right _ (hc ▸ List.mem_map.mpr ⟨x, h1, rfl⟩)
  refine ⟨h.next_le, ?_, ?_, ?_, ?_, h.fin_nodup, ?_, ?_, h.fin_val,
    h.fin_lt, ?_, ?_, ?_, ?_, ?_⟩
  · show (A ++ (⟨e.row, e.attempt + 1⟩ : RunningEntry) :: B).length
      ≤ cfg.concurrency
    have hl : (A ++ (⟨e.row, e.attempt + 1⟩ : RunningEntry) :: B).length
        = s.running.length := by
      rw [hrun]
      simp
    rw [hl]
    exact h.conc
  · intro x hx
    rcases List.mem_append.mp hx with h1 | h1
    · exact h.run_lt x (hA_sub x h1)
    · rcases List.mem_cons.mp h1 with h2 | h2
      · subst h2
        exact h.run_lt e he_mem
      · exact h.run_lt x (hB_sub x h2)
  · intro x hx
    rcases List.mem_append.mp hx with h1 | h1
    · exact h.att_le x (hA_sub x h1)
    · rcases List.mem_cons.mp h1 with h2 | h2
      · subst h2
        show e.attempt + 1 ≤ cfg.maxRetries
        omega
      · exact h.att_le x (hB_sub x h2)
  · show ((A ++ (⟨e.row, e.attempt + 1⟩ : RunningEntry) :: B).map
      RunningEntry.row).Nodup
    have hm : (A ++ (⟨e.row, e.attempt + 1⟩ : RunningEntry) :: B).map
        RunningEntry.row = A.map RunningEntry.row
          ++ e.row :: B.map RunningEntry.row := by
      simp
    rw [hm]
    exact hnodup2
  · intro x hx p hp
    rcases List.mem_append.mp hx with h1 | h1
    · exact h.disj x (hA_sub x h1) p hp
    · rcases List.mem_cons.mp h1 with h2 | h2
      · subst h2
        exact h.disj e he_mem p hp
      · exact h.disj x (hB_sub x h2) p hp
  · intro i hi
    rcases h.cover i hi with ⟨x, hx, hxi⟩ | hfin
    · rw [hrun] at hx
      rcases List.mem_append.mp hx with h1 | h1
      · exact Or.inl ⟨x, List.mem_append_left _ h1, hxi⟩
      · rcases List.mem_cons.mp h1 with h2 | h2
        · subst h2
          exact Or.inl ⟨⟨x.row, x.attempt + 1⟩,
            List.mem_append_right _ (List.mem_cons_self _ _), hxi⟩
        · exact Or.inl ⟨x, List.mem_append_right _
            (List.mem_cons_of_mem _ h2), hxi⟩
    · exact Or.inr hfin
  · intro x hx
    show countAttempts (s.events ++ [Event.retryEv e.row]) x.row
      = x.attempt + 1
    rw [countAttempts_append, countAttempts_retry]
    rcases List.mem_append.mp hx with h1 | h1
    · have hne : ¬ e.row = x.row := fun hc =>
        hrow_ne x (Or.inl h1) hc.symm
      rw [if_neg hne]
      have := h.ev_run x (hA_sub x h1)
      omega
    · rcases List.mem_cons.mp h1 with h2 | h2
      · subst h2
        show countAttempts s.events e.row
          + (if e.row = e.row then 1 else 0) = e.attempt + 1 + 1
        rw [if_pos rfl]
        have := h.ev_run e he_mem
        omega
      · have hne : ¬ e.row = x.row := fun hc =>
          hrow_ne x (Or.inr h2) hc.symm
        rw [if_neg hne]
        have := h.ev_run x (hB_sub x h2)
        omega
  · intro i
    show countAttempts (s.events ++ [Event.retryEv e.row]) i
      ≤ cfg.maxRetries + 1
    rw [countAttempts_append, countAttempts_retry]
    by_cases hei : e.row = i
    · rw [if_pos hei]
      have h4 := h.ev_run e he_mem
      rw [hei] at h4
      omega
    · rw [if_neg hei]
      have := h.ev_all i
      omega
  · intro i hi
    have hi2 : s.nextRow ≤ i := hi
    show countAttempts (s.events ++ [Event.retryEv e.row]) i = 0
    rw [countAttempts_append, countAttempts_retry]
    have hlt := h.run_lt e he_mem
    have hne : ¬ e.row = i := by omega
    rw [if_neg hne, h.ev_new i hi2]
  · intro hc
    have hc2 : s.canceled = false := hc
    intro hmem
    rcases List.mem_append.mp hmem with h1 | h1
    · exact h.canc_ev hc2 h1
    · simp at h1
  · intro l1 l2 hsplit i hmem
    have hsplit2 : s.events ++ [Event.retryEv e.row]
        = l1 ++ Event.cancelEv :: l2 := hsplit
    rcases snoc_eq_append_cons _ _ _ _ _ hsplit2
      with ⟨l3, h1, h2⟩ | ⟨h3, _, _⟩
    · rw [h2] at hmem
      rcases List.mem_append.mp hmem with h4 | h4
      · exact h.no_disp l1 l3 h1 i h4
      · simp at h4
    · exact absurd h3 (by simp)

theorem inv_finish (cfg : BatchConfig) (numRows : Nat)
    (runRow : Nat → LineResult) {s : BatchState}
    (h : BatchInv cfg numRows runRow s) (A B : List RunningEntry)
    (e : RunningEntry) (hrun : s.running = A ++ e :: B) :
    BatchInv cfg numRows runRow
      { s with
        running := A ++ B,
        finished := s.finished ++ [(e.row, runRow e.row)],
        events := s.events ++ [.finishEv e.row] } := by
  have he_mem : e ∈ s.running := by
    rw [hrun]
    exact List.mem_append_right _ (List.mem_cons_self _ _)
  have hA_sub : ∀ x ∈ A, x ∈ s.running := by
    intro x hx
    rw [hrun]
    exact List.mem_append_left _ hx
  have hB_sub : ∀ x ∈ B, x ∈ s.running := by
    intro x hx
    rw [hrun]
    exact List.mem_append_right _ (List.mem_cons_of_mem _ hx)
  have hAB_sub : ∀ x ∈ A ++ B, x ∈ s.running := by
    intro x hx
    rcases List.mem_append.mp hx with h1 | h1
    · exact hA_sub x h1
    · exact hB_sub x h1
  have hnodup2 : (A.map RunningEntry.row
      ++ e.row :: B.map RunningEntry.row).Nodup := by
    have h2 := h.run_nodup
    rw [hrun] at h2
    simpa using h2
  have h3 := List.nodup_middle.mp hnodup2
  rcases List.nodup_cons.mp h3 with ⟨hrow_notin, hrest_nodup⟩
  have hrow_ne : ∀ x : RunningEntry, x ∈ A ++ B → x.row ≠ e.row := by
    intro x hx hc
    apply hrow_notin
    rcases List.mem_append.mp hx with h1 | h1
    · exact List.mem_append_left _ (hc ▸ List.mem_map.mpr ⟨x, h1, rfl⟩)
    · exact List.mem_append_right _ (hc ▸ List.mem_map.mpr ⟨x, h1, rfl⟩)
  refine ⟨h.next_le, ?_, ?_, ?_, ?_, ?_, ?_, ?_, ?_, ?_, ?_, ?_, ?_, ?_, ?_⟩
  · show (A ++ B).length ≤ cfg.concurrency
    have hl : s.running.length = A.length + B.length + 1 := by
      rw [hrun]
      simp
      omega
    have := h.conc
    simp only [List.length_append]
    omega
  · intro x hx
    exact h.run_lt x (hAB_sub x hx)
  · intro x hx
    exact h.att_le x (hAB_sub x hx)
  · show ((A ++ B).map RunningEntry.row).Nodup
    rw [List.map_append]
    exact hrest_nodup
  · show ((s.finished ++ [(e.row, runRow e.row)]).map Prod.fst).Nodup
    rw [List.map_append, List.nodup_append]
    refine ⟨h.fin_nodup, by simp, ?_⟩
    intro x hx
    rcases List.mem_map.mp hx with ⟨p, hp, hpx⟩
    simp only [List.map_cons, List.map_nil, List.mem_singleton]
    intro hc
    have hd := h.disj e he_mem p hp
    exact hd (hpx.trans hc).symm
  · intro x hx p hp
    rcases List.mem_append.mp hp with h1 | h1
    · exact h.disj x (hAB_sub x hx) p h1
    · have hp2 : p = (e.row, runRow e.row) := by simpa using h1
      subst hp2
      exact hrow_ne x hx
  · intro i hi
    rcases h.cover i hi with ⟨x, hx, hxi⟩ | hfin
    · rw [hrun] at hx
      rcases List.mem_append.mp hx with h1 | h1
      · exact Or.inl ⟨x, List.mem_append_left _ h1, hxi⟩
      · rcases List.mem_cons.mp h1 with h2 | h2
        · subst h2
          exact Or.inr ⟨(x.row, runRow x.row),
            List.mem_append_right _ (by simp), hxi⟩
        · exact Or.inl ⟨x, List.mem_append_right _ h2, hxi⟩
    · rcases hfin with ⟨p, hp, hpi⟩
      exact Or.inr ⟨p, List.mem_append_left _ hp, hpi⟩
  · intro p hp
    rcases List.mem_append.mp hp with h1 | h1
    · exact h.fin_val p h1
    · have hp2 : p = (e.row, runRow e.row) := by simpa using h1
      subst hp2
      rfl
  · intro p hp
    rcases List.mem_append.mp hp with h1 | h1
    · exact h.fin_lt p h1
    · have hp2 : p = (e.row, runRow e.row) := by simpa using h1
      subst hp2
      exact h.run_lt e he_mem
  · intro x hx
    show countAttempts (s.events ++ [Event.finishEv e.row]) x.row
      = x.attempt + 1
    rw [countAttempts_append, countAttempts_finish]
    have := h.ev_run x (hAB_sub x hx)
    omega
  · intro i
    show countAttempts (s.events ++ [Event.finishEv e.row]) i
      ≤ cfg.maxRetries + 1
    rw [countAttempts_append, countAttempts_finish]
    have := h.ev_all i
    omega
  · intro i hi
    show countAttempts (s.events ++ [Event.finishEv e.row]) i = 0
    rw [countAttempts_append, countAttempts_finish, h.ev_new i hi]
  · intro hc
    have hc2 : s.canceled = false := hc
    intro hmem
    rcases List.mem_append.mp hmem with h1 | h1
    · exact h.canc_ev hc2 h1
    · simp at h1
  · intro l1 l2 hsplit i hmem
    have hsplit2 : s.events ++ [Event.finishEv e.row]
        = l1 ++ Event.cancelEv :: l2 := hsplit
    rcases snoc_eq_append_cons _ _ _ _ _ hsplit2
      with ⟨l3, h1, h2⟩ | ⟨h3, _, _⟩
    · rw [h2] at hmem
      rcases List.mem_append.mp hmem with h4 | h4
      · exact h.no_disp l1 l3 h1 i h4
      · simp at h4
    · exact absurd h3 (by simp)

theorem applyChoice_complete_inv (cfg : BatchConfig) (numRows : Nat)
    (runRow : Nat → LineResult) (transientP : LineResult → Bool)
    {s : BatchState} (h : BatchInv cfg numRows runRow s) (pick : Nat) :
    BatchInv cfg numRows runRow
      (applyChoice cfg numRows runRow transientP s (.complete pick)) := by
  cases hrun : s.running with
  | nil =>
    have happ : applyChoice cfg numRows runRow transientP s (.complete pick)
        = s := by
      simp [applyChoice, hrun]
    rw [happ]
    exact h
  | cons e0 rest =>
    have hidx : pick % (e0 :: rest).length < (e0 :: rest).length :=
      Nat.mod_lt _ (by simp)
    have hdecomp := list_decomp (e0 :: rest) e0 (pick % (e0 :: rest).length) hidx
    have hrun2 : s.running = (e0 :: rest).take (pick % (e0 :: rest).length)
        ++ ((e0 :: rest).getD (pick % (e0 :: rest).length) e0) ::
          (e0 :: rest).drop (pick % (e0 :: rest).length + 1) := by
      rw [hrun]
      exact hdecomp
    by_cases htr : transientP (runRow
        ((e0 :: rest).getD (pick % (e0 :: rest).length) e0).row) = true
      ∧ ((e0 :: rest).getD (pick % (e0 :: rest).length) e0).attempt
          < cfg.maxRetries
    · have happ : applyChoice cfg numRows runRow transientP s (.complete pick)
          = { s with
              running := (e0 :: rest).take (pick % (e0 :: rest).length) ++
                ⟨((e0 :: rest).getD (pick % (e0 :: rest).length) e0).row,
                 ((e0 :: rest).getD (pick % (e0 :: rest).length) e0).attempt
                   + 1⟩ ::
                (e0 :: rest).drop (pick % (e0 :: rest).length + 1),
              events := s.events ++ [.retryEv
                ((e0 :: rest).getD (pick % (e0 :: rest).length) e0).row] } := by
        simp only [applyChoice, hrun]
        rw [if_pos htr]
      rw [happ]
      exact inv_retry cfg numRows runRow h _ _ _ hrun2 htr.2
    · have happ : applyChoice cfg numRows runRow transientP s (.complete pick)
          = { s with
              running := (e0 :: rest).take (pick % (e0 :: rest).length) ++
                (e0 :: rest).drop (pick % (e0 :: rest).length + 1),
              finished := s.finished ++
                [(((e0 :: rest).getD (pick % (e0 :: rest).length) e0).row,
                  runRow ((e0 :: rest).getD
                    (pick % (e0 :: rest).length) e0).row)],
              events := s.events ++ [.finishEv
                ((e0 :: rest).getD (pick % (e0 :: rest).length) e0).row] } := by
        simp only [applyChoice, hrun]
        rw [if_neg htr]
      rw [happ]
      exact inv_finish cfg numRows runRow h _ _ _ hrun2


theorem applyChoice_inv (cfg : BatchConfig) (numRows : Nat)
    (runRow : Nat → LineResult) (transientP : LineResult → Bool)
    {s : BatchState} (h : BatchInv cfg numRows runRow s) (c : Choice) :
    BatchInv cfg numRows runRow
      (applyChoice cfg numRows runRow transientP s c) := by
  cases c with
  | dispatch => exact applyChoice_dispatch_inv cfg numRows runRow transientP h
  | complete pick =>
    exact applyChoice_complete_inv cfg numRows runRow transientP h pick
  | cancel => exact applyChoice_cancel_inv cfg numRows runRow transientP h

theorem applyChoices_inv (cfg : BatchConfig) (numRows : Nat)
    (runRow : Nat → LineResult) (transientP : LineResult → Bool) :
    ∀ (sched : List Choice) {s : BatchState},
      BatchInv cfg numRows runRow s →
      BatchInv cfg numRows runRow
        (applyChoices cfg numRows runRow transientP sched s) := by
  intro sched
  induction sched with
  | nil => exact fun h => h
  | cons c cs ih =>
    intro s h
    exact ih (applyChoice_inv cfg numRows runRow transientP h c)

theorem drain_inv (cfg : BatchConfig) (numRows : Nat)
    (runRow : Nat → LineResult) (transientP : LineResult → Bool) :
    ∀ (fuel : Nat) {s : BatchState},
      BatchInv cfg numRows runRow s →
      BatchInv cfg numRows runRow
        (drain cfg numRows runRow transientP fuel s) := by
  intro fuel
  induction fuel with
  | zero => exact fun h => h
  | succ fuel ih =>
    intro s h
    unfold drain
    by_cases h1 : canDispatch cfg numRows s = true
    · rw [if_pos h1]
      exact ih (applyChoice_inv cfg numRows runRow transientP h .dispatch)
    · rw [if_neg h1]
      by_cases h2 : s.running.isEmpty = false
      · rw [if_pos h2]
        exact ih (applyChoice_inv cfg numRows runRow transientP h (.complete 0))
      · rw [if_neg h2]
        exact h

theorem measure_dispatch_lt (cfg : BatchConfig) (numRows : Nat)
    (runRow : Nat → LineResult) (transientP : LineResult → Bool)
    {s : BatchState}
    (hg : s.canceled = false ∧ s.running.length < cfg.concurrency
      ∧ s.nextRow < numRows) :
    measureB cfg numRows (applyChoice cfg numRows runRow transientP s .dispatch)
      < measureB cfg numRows s := by
  have happ : applyChoice cfg numRows runRow transientP s .dispatch
      = { s with
          nextRow := s.nextRow + 1,
          running := s.running ++ [⟨s.nextRow, 0⟩],
          events := s.events ++ [.dispatchEv s.nextRow] } := by
    simp [applyChoice, hg]
  rw [happ]
  show (numRows - (s.nextRow + 1)) * (cfg.maxRetries + 2)
      + ((s.running ++ [(⟨s.nextRow, 0⟩ : RunningEntry)]).map
          (entWeight cfg)).sum
    < (numRows - s.nextRow) * (cfg.maxRetries + 2)
      + (s.running.map (entWeight cfg)).sum
  rw [List.map_append, List.sum_append]
  have hw : ((([(⟨s.nextRow, 0⟩ : RunningEntry)]).map (entWeight cfg)).sum)
      = cfg.maxRetries + 1 := by
    simp [entWeight]
  rw [hw]
  have hk : numRows - s.nextRow = (numRows - (s.nextRow + 1)) + 1 := by omega
  rw [hk, Nat.succ_mul]
  omega

theorem measure_complete_lt (cfg : BatchConfig) (numRows : Nat)
    (runRow : Nat → LineResult) (transientP : LineResult → Bool)
    {s : BatchState} (hinv : BatchInv cfg numRows runRow s)
    (hne : s.running ≠ []) (pick : Nat) :
    measureB cfg numRows
        (applyChoice cfg numRows runRow transientP s (.complete pick))
      < measureB cfg numRows s := by
  cases hrun : s.running with
  | nil => exact absurd hrun hne
  | cons e0 rest =>
    have hidx : pick % (e0 :: rest).length < (e0 :: rest).length :=
      Nat.mod_lt _ (by simp)
    have hdecomp := list_decomp (e0 :: rest) e0 (pick % (e0 :: rest).length) hidx
    have hrun2 : s.running = (e0 :: rest).take (pick % (e0 :: rest).length)
        ++ ((e0 :: rest).getD (pick % (e0 :: rest).length) e0) ::
          (e0 :: rest).drop (pick % (e0 :: rest).length + 1) := by
      rw [hrun]
      exact hdecomp
    have he_mem : (e0 :: rest).getD (pick % (e0 :: rest).length) e0
        ∈ s.running := by
      rw [hrun2]
      exact List.mem_append_right _ (List.mem_cons_self _ _)
    have hatt := hinv.att_le _ he_mem
    by_cases htr : transientP (runRow
        ((e0 :: rest).getD (pick % (e0 :: rest).length) e0).row) = true
      ∧ ((e0 :: rest).getD (pick % (e0 :: rest).length) e0).attempt
          < cfg.maxRetries
    · have happ : applyChoice cfg numRows runRow transientP s (.complete pick)
          = { s with
              running := (e0 :: rest).take (pick % (e0 :: rest).length) ++
                ⟨((e0 :: rest).getD (pick % (e0 :: rest).length) e0).row,
                 ((e0 :: rest).getD (pick % (e0 :: rest).length) e0).attempt
                   + 1⟩ ::
                (e0 :: rest).drop (pick % (e0 :: rest).length + 1),
              events := s.events ++ [.retryEv
                ((e0 :: rest).getD (pick % (e0 :: rest).length) e0).row] } := by
        simp only [applyChoice, hrun]
        rw [if_pos htr]
      rw [happ]
      unfold measureB
      conv_rhs => rw [hrun2]
      simp only [List.map_append, List.sum_append, List.map_cons,
        List.sum_cons]
      simp only [entWeight]
      have ha := htr.2
      omega
    · have happ : applyChoice cfg numRows runRow transientP s (.complete pick)
          = { s with
              running := (e0 :: rest).take (pick % (e0 :: rest).length) ++
                (e0 :: rest).drop (pick % (e0 :: rest).length + 1),
              finished := s.finished ++
                [(((e0 :: rest).getD (pick % (e0 :: rest).length) e0).row,
                  runRow ((e0 :: rest).getD
                    (pick % (e0 :: rest).length) e0).row)],
              events := s.events ++ [.finishEv
                ((e0 :: rest).getD (pick % (e0 :: rest).length) e0).row] } := by
        simp only [applyChoice, hrun]
        rw [if_neg htr]
      rw [happ]
      unfold measureB
      conv_rhs => rw [hrun2]
      simp only [List.map_append, List.sum_append, List.map_cons,
        List.sum_cons]
      simp only [entWeight]
      omega

theorem drain_complete (cfg : BatchConfig) (numRows : Nat)
    (runRow : Nat → LineResult) (transientP : LineResult → Bool) :
    ∀ (fuel : Nat) {s : BatchState}, BatchInv cfg numRows runRow s →
      measureB cfg numRows s ≤ fuel →
      (drain cfg numRows runRow transientP fuel s).running = []
      ∧ canDispatch cfg numRows
          (drain cfg numRows runRow transientP fuel s) = false := by
  intro fuel
  induction fuel with
  | zero =>
    intro s hinv hm
    have hm0 : measureB cfg numRows s = 0 := Nat.le_zero.mp hm
    unfold measureB at hm0
    have hsum : (s.running.map (entWeight cfg)).sum = 0 := by omega
    have hprod : (numRows - s.nextRow) * (cfg.maxRetries + 2) = 0 := by omega
    have hnr : numRows - s.nextRow = 0 := by
      rcases Nat.mul_eq_zero.mp hprod with h4 | h4
      · exact h4
      · omega
    constructor
    · show s.running = []
      cases hr : s.running with
      | nil => rfl
      | cons e0 rest =>
        exfalso
        have hatt := hinv.att_le e0 (by rw [hr]; exact List.mem_cons_self _ _)
        rw [hr] at hsum
        simp only [List.map_cons, List.sum_cons, entWeight] at hsum
        omega
    · show canDispatch cfg numRows s = false
      unfold canDispatch
      simp only [decide_eq_false_iff_not]
      rintro ⟨_, _, h3⟩
      omega
  | succ fuel ih =>
    intro s hinv hm
    unfold drain
    by_cases h1 : canDispatch cfg numRows s = true
    · rw [if_pos h1]
      have hg : s.canceled = false ∧ s.running.length < cfg.concurrency
          ∧ s.nextRow < numRows := of_decide_eq_true h1
      apply ih (applyChoice_inv cfg numRows runRow transientP hinv .dispatch)
      have := measure_dispatch_lt cfg numRows runRow transientP hg
      omega
    · rw [if_neg h1]
      by_cases h2 : s.running.isEmpty = false
      · rw [if_pos h2]
        apply ih (applyChoice_inv cfg numRows runRow transientP hinv
          (.complete 0))
        have hne : s.running ≠ [] := by
          intro hc
          rw [hc] at h2
          simp at h2
        have := measure_complete_lt cfg numRows runRow transientP hinv hne 0
        omega
      · rw [if_neg h2]
        constructor
        · have h3 : s.running.isEmpty = true := by
            cases hie : s.running.isEmpty with
            | false => exact absurd hie h2
            | true => rfl
          exact List.isEmpty_iff.mp h3
        · exact Bool.of_not_eq_true h1

theorem applyChoice_canceled_other (cfg : BatchConfig) (numRows : Nat)
    (runRow : Nat → LineResult) (transientP : LineResult → Bool)
    (s : BatchState) (c : Choice) (hc : c ≠ Choice.cancel) :
    (applyChoice cfg numRows runRow transientP s c).canceled = s.canceled := by
  cases c with
  | cancel => exact absurd rfl hc
  | dispatch =>
    simp only [applyChoice]
    split
    · rfl
    · rfl
  | complete pick =>
    simp only [applyChoice]
    split
    · rfl
    · split
      · rfl
      · rfl

theorem applyChoice_canceled_true (cfg : BatchConfig) (numRows : Nat)
    (runRow : Nat → LineResult) (transientP : LineResult → Bool)
    (s : BatchState) (c : Choice) (hc : s.canceled = true) :
    (applyChoice cfg numRows runRow transientP s c).canceled = true := by
  cases c with
  | cancel => rfl
  | dispatch =>
    rw [applyChoice_canceled_other cfg numRows runRow transientP s _ (by simp)]
    exact hc
  | complete pick =>
    rw [applyChoice_canceled_other cfg numRows runRow transientP s _ (by simp)]
    exact hc

theorem applyChoices_canceled_true (cfg : BatchConfig) (numRows : Nat)
    (runRow : Nat → LineResult) (transientP : LineResult → Bool) :
    ∀ (sched : List Choice) (s : BatchState), s.canceled = true →
      (applyChoices cfg numRows runRow transientP sched s).canceled = true := by
  intro sched
  induction sched with
  | nil => exact fun s h => h
  | cons c cs ih =>
    intro s h
    exact ih _ (applyChoice_canceled_true cfg numRows runRow transientP s c h)

theorem applyChoices_canceled_not_mem (cfg : BatchConfig) (numRows : Nat)
    (runRow : Nat → LineResult) (transientP : LineResult → Bool) :
    ∀ (sched : List Choice) (s : BatchState), Choice.cancel ∉ sched →
      (applyChoices cfg numRows runRow transientP sched s).canceled
        = s.canceled := by
  intro sched
  induction sched with
  | nil => exact fun s _ => rfl
  | cons c cs ih =>
    intro s h
    have hc : c ≠ Choice.cancel := fun hcc =>
      h (hcc ▸ List.mem_cons_self c cs)
    have h2 : Choice.cancel ∉ cs := fun hcc =>
      h (List.mem_cons_of_mem c hcc)
    show (applyChoices cfg numRows runRow transientP cs
      (applyChoice cfg numRows runRow transientP s c)).canceled = s.canceled
    rw [ih _ h2,
      applyChoice_canceled_other cfg numRows runRow transientP s c hc]

theorem applyChoices_canceled_mem (cfg : BatchConfig) (numRows : Nat)
    (runRow : Nat → LineResult) (transientP : LineResult → Bool) :
    ∀ (sched : List Choice) (s : BatchState), Choice.cancel ∈ sched →
      (applyChoices cfg numRows runRow transientP sched s).canceled = true := by
  intro sched
  induction sched with
  | nil =>
    intro s h
    simp at h
  | cons c cs ih =>
    intro s h
    rcases List.mem_cons.mp h with h1 | h1
    · subst h1
      exact applyChoices_canceled_true cfg numRows runRow transientP cs _ rfl
    · exact ih _ h1

theorem drain_canceled (cfg : BatchConfig) (numRows : Nat)
    (runRow : Nat → LineResult) (transientP : LineResult → Bool) :
    ∀ (fuel : Nat) (s : BatchState),
      (drain cfg numRows runRow transientP fuel s).canceled = s.canceled := by
  intro fuel
  induction fuel with
  | zero => exact fun s => rfl
  | succ fuel ih =>
    intro s
    unfold drain
    by_cases h1 : canDispatch cfg numRows s = true
    · rw [if_pos h1, ih,
        applyChoice_canceled_other cfg numRows runRow transientP s _ (by simp)]
    · rw [if_neg h1]
      by_cases h2 : s.running.isEmpty = false
      · rw [if_pos h2, ih,
          applyChoice_canceled_other cfg numRows runRow transientP s _
            (by simp)]
      · rw [if_neg h2]

theorem lookupFinished_isSome_of_mem {l : List (Nat × LineResult)} {i : Nat}
    (h : i ∈ l.map Prod.fst) : ∃ r, lookupFinished l i = some r := by
  induction l with
  | nil => simp at h
  | cons p t ih =>
    obtain ⟨j, v⟩ := p
    simp only [lookupFinished]
    by_cases hj : j = i
    · exact ⟨v, by simp [hj]⟩
    · simp only [hj, if_false]
      apply ih
      simp only [List.map_cons, List.mem_cons] at h
      rcases h with h1 | h1
      · exact absurd h1.symm hj
      · exact h1

theorem lookupFinished_mem {l : List (Nat × LineResult)} {i : Nat}
    {r : LineResult} (h : lookupFinished l i = some r) : (i, r) ∈ l := by
  induction l with
  | nil => simp [lookupFinished] at h
  | cons p t ih =>
    obtain ⟨j, v⟩ := p
    simp only [lookupFinished] at h
    by_cases hj : j = i
    · rw [if_pos hj] at h
      have hv : v = r := by
        injection h
      rw [← hj, ← hv]
      exact List.mem_cons_self _ _
    · rw [if_neg hj] at h
      exact List.mem_cons_of_mem _ (ih h)

/-- C4: in every state the Batch Scheduler can reach — any adversary
interleaving of dispatches, completions and cancellation, and the drain
phase after it — the number of rows with status Running is at most
`concurrency`. -/
theorem concurrency_bound (cfg : BatchConfig) (numRows : Nat)
    (runRow : Nat → LineResult) (transientP : LineResult → Bool)
    (sched : List Choice) :
    (applyChoices cfg numRows runRow transientP sched
        initBatch).running.length ≤ cfg.concurrency
    ∧ (finalState cfg numRows runRow transientP sched).running.length
      ≤ cfg.concurrency := by
  have h1 := (applyChoices_inv cfg numRows runRow transientP sched
    (initBatch_inv cfg numRows runRow)).conc
  have h2 := (drain_inv cfg numRows runRow transientP
    (measureB cfg numRows
      (applyChoices cfg numRows runRow transientP sched initBatch))
    (applyChoices_inv cfg numRows runRow transientP sched
      (initBatch_inv cfg numRows runRow))).conc
  exact ⟨h1, h2⟩

/-- C5: under every interleaving, every row is attempted at most
`1 + max_retries` times (its dispatch plus its retries in the event trace),
and each attempt runs the same per-row computation, whose result is what
gets recorded. -/
theorem retry_bound (cfg : BatchConfig) (numRows : Nat)
    (runRow : Nat → LineResult) (transientP : LineResult → Bool)
    (sched : List Choice) (i : Nat) :
    countAttempts (finalState cfg numRows runRow transientP sched).events i
      ≤ 1 + cfg.maxRetries
    ∧ ∀ p ∈ (finalState cfg numRows runRow transientP sched).finished,
        p.2 = runRow p.1 := by
  have hinv := drain_inv cfg numRows runRow transientP
    (measureB cfg numRows
      (applyChoices cfg numRows runRow transientP sched initBatch))
    (applyChoices_inv cfg numRows runRow transientP sched
      (initBatch_inv cfg numRows runRow))
  have hfs : finalState cfg numRows runRow transientP sched
      = drain cfg numRows runRow transientP
          (measureB cfg numRows
            (applyChoices cfg numRows runRow transientP sched initBatch))
          (applyChoices cfg numRows runRow transientP sched initBatch) := rfl
  rw [hfs]
  constructor
  · have := hinv.ev_all i
    omega
  · exact hinv.fin_val

/-- Configuration for the scheduler witnesses. -/
def cfgW : BatchConfig := ⟨1, 2⟩

/-- The Line Result of the trivial empty flow, for the scheduler witnesses. -/
def lineK : LineResult := (runLine [] [] implW [] [] 0).1

/-- Constant per-row execution for the scheduler witnesses. -/
def runRowW : Nat → LineResult := fun _ => lineK

/-- Nothing is transient, for the scheduler witnesses. -/
def transientW : LineResult → Bool := fun _ => false

/-- Schedule dispatching one row and completing it. -/
def schedW : List Choice := [.dispatch, .complete 0]

/-- Witness for C5 at a concrete one-row run: the recorded result of the
finished row is the per-row computation's result. -/
theorem retry_bound_witness :
    (0, lineK).2 = runRowW (0, lineK).1 :=
  (retry_bound cfgW 1 runRowW transientW schedW 0).2 (0, lineK) (by decide)

/-- C2: under every cancellation-free interleaving of concurrent row
completions, the Batch Result has exactly one Line Result per input row —
each slot holds the Flow Runner's result for that row — in input-row
order, and the number of recorded rows equals the number of input rows. -/
theorem batch_result_per_row (cfg : BatchConfig) (nodes : List Node)
    (outs : List OutputDecl) (impl : Impl) (rows : List Row)
    (transientP : LineResult → Bool) (sched : List Choice)
    (hconc : 0 < cfg.concurrency) (hnc : Choice.cancel ∉ sched) :
    (batchResultOf cfg rows.length (lineOf nodes outs impl rows) transientP
        sched).lines
      = rows.map (fun r => some ((runLine nodes outs impl r [] 0).1))
    ∧ (finalState cfg rows.length (lineOf nodes outs impl rows) transientP
        sched).finished.length = rows.length := by
  have hinv1 := applyChoices_inv cfg rows.length
    (lineOf nodes outs impl rows) transientP sched
    (initBatch_inv cfg rows.length (lineOf nodes outs impl rows))
  have hinv := drain_inv cfg rows.length (lineOf nodes outs impl rows)
    transientP (measureB cfg rows.length
      (applyChoices cfg rows.length (lineOf nodes outs impl rows) transientP
        sched initBatch)) hinv1
  have hdc := drain_complete cfg rows.length (lineOf nodes outs impl rows)
    transientP (measureB cfg rows.length
      (applyChoices cfg rows.length (lineOf nodes outs impl rows) transientP
        sched initBatch)) hinv1 (Nat.le_refl _)
  have hfs : finalState cfg rows.length (lineOf nodes outs impl rows)
      transientP sched
      = drain cfg rows.length (lineOf nodes outs impl rows) transientP
          (measureB cfg rows.length
            (applyChoices cfg rows.length (lineOf nodes outs impl rows)
              transientP sched initBatch))
          (applyChoices cfg rows.length (lineOf nodes outs impl rows)
            transientP sched initBatch) := rfl
  rw [← hfs] at hdc hinv
  obtain ⟨hrunnil, hcd⟩ := hdc
  have hcanc : (finalState cfg rows.length (lineOf nodes outs impl rows)
      transientP sched).canceled = false := by
    rw [hfs, drain_canceled, applyChoices_canceled_not_mem cfg rows.length
      (lineOf nodes outs impl rows) transientP sched initBatch hnc]
    rfl
  have hnext : (finalState cfg rows.length (lineOf nodes outs impl rows)
      transientP sched).nextRow = rows.length := by
    have h2 := of_decide_eq_false hcd
    have h3 := hinv.next_le
    by_contra hne
    apply h2
    refine ⟨hcanc, ?_, ?_⟩
    · rw [hrunnil]
      simpa using hconc
    · omega
  constructor
  · show (List.range rows.length).map
        (lookupFinished (finalState cfg rows.length
          (lineOf nodes outs impl rows) transientP sched).finished)
      = rows.map (fun r => some ((runLine nodes outs impl r [] 0).1))
    apply List.ext_getElem
    · simp
    · intro i h1 h2
      simp only [List.getElem_map, List.getElem_range]
      have hi : i < rows.length := by simpa using h2
      rcases hinv.cover i (by omega) with ⟨e, he, _⟩ | ⟨p, hp, hpi⟩
      · rw [hrunnil] at he
        simp at he
      · rcases lookupFinished_isSome_of_mem
          (List.mem_map.mpr ⟨p, hp, hpi⟩) with ⟨r, hr⟩
        rw [hr]
        have hmem := lookupFinished_mem hr
        have hval : r = lineOf nodes outs impl rows i := hinv.fin_val _ hmem
        rw [hval]
        show some (lineOf nodes outs impl rows i)
          = some ((runLine nodes outs impl rows[i] [] 0).1)
        unfold lineOf
        rw [List.getD_eq_getElem rows [] hi]
  · have hnd := hinv.fin_nodup
    have hmemiff : ∀ j, j ∈ (finalState cfg rows.length
        (lineOf nodes outs impl rows) transientP sched).finished.map Prod.fst
        ↔ j < rows.length := by
      intro j
      constructor
      · intro hmem
        rcases List.mem_map.mp hmem with ⟨p, hp, hpj⟩
        have := hinv.fin_lt p hp
        omega
      · intro hj
        rcases hinv.cover j (by omega) with ⟨e, he, _⟩ | ⟨p, hp, hpj⟩
        · rw [hrunnil] at he
          simp at he
        · exact List.mem_map.mpr ⟨p, hp, hpj⟩
    calc (finalState cfg rows.length (lineOf nodes outs impl rows)
          transientP sched).finished.length
        = ((finalState cfg rows.length (lineOf nodes outs impl rows)
            transientP sched).finished.map Prod.fst).length := by simp
      _ = ((finalState cfg rows.length (lineOf nodes outs impl rows)
            transientP sched).finished.map Prod.fst).toFinset.card :=
          (List.toFinset_card_of_nodup hnd).symm
      _ = (Finset.range rows.length).card := by
          congr 1
          ext j
          simp only [List.mem_toFinset, Finset.mem_range]
          exact hmemiff j
      _ = rows.length := Finset.card_range _

/-- Witness for C2 at a concrete one-row batch. -/
theorem batch_result_per_row_witness :
    (batchResultOf cfgW ([([] : Row)] : List Row).length
        (lineOf [] [] implW [([] : Row)]) transientW []).lines
      = ([([] : Row)] : List Row).map
          (fun r => some ((runLine ([] : List Node) [] implW r [] 0).1)) :=
  (batch_result_per_row cfgW [] [] implW [([] : Row)] transientW []
    (by decide) (by decide)).1

/-- C7: after a cancellation signal no new row is ever dispatched (the
trace has no dispatch event after a cancel event); the batch ends with no
row still running and every dispatched row holds a recorded result; and the
batch reports Canceled exactly when cancellation was requested, only after
the drain let running rows finish. -/
theorem cancellation_semantics (cfg : BatchConfig) (numRows : Nat)
    (runRow : Nat → LineResult) (transientP : LineResult → Bool)
    (sched : List Choice) :
    (∀ l1 l2, (finalState cfg numRows runRow transientP sched).events
        = l1 ++ Event.cancelEv :: l2 → ∀ i, Event.dispatchEv i ∉ l2)
    ∧ (finalState cfg numRows runRow transientP sched).running = []
    ∧ (∀ i, i < (finalState cfg numRows runRow transientP sched).nextRow →
        ∃ r, lookupFinished
          (finalState cfg numRows runRow transientP sched).finished i
          = some r)
    ∧ ((batchResultOf cfg numRows runRow transientP sched).status
        = BatchStatus.canceledB ↔ Choice.cancel ∈ sched) := by
  have hinv1 := applyChoices_inv cfg numRows runRow transientP sched
    (initBatch_inv cfg numRows runRow)
  have hinv := drain_inv cfg numRows runRow transientP
    (measureB cfg numRows
      (applyChoices cfg numRows runRow transientP sched initBatch)) hinv1
  have hdc := drain_complete cfg numRows runRow transientP
    (measureB cfg numRows
      (applyChoices cfg numRows runRow transientP sched initBatch)) hinv1
    (Nat.le_refl _)
  have hfs : finalState cfg numRows runRow transientP sched
      = drain cfg numRows runRow transientP
          (measureB cfg numRows
            (applyChoices cfg numRows runRow transientP sched initBatch))
          (applyChoices cfg numRows runRow transientP sched initBatch) := rfl
  rw [← hfs] at hdc hinv
  refine ⟨hinv.no_disp, hdc.1, ?_, ?_⟩
  · intro i hi
    rcases hinv.cover i hi with ⟨e, he, _⟩ | ⟨p, hp, hpi⟩
    · rw [hdc.1] at he
      simp at he
    · exact lookupFinished_isSome_of_mem (List.mem_map.mpr ⟨p, hp, hpi⟩)
  · show (if (finalState cfg numRows runRow transientP sched).canceled
        then BatchStatus.canceledB else BatchStatus.completedB)
        = BatchStatus.canceledB ↔ Choice.cancel ∈ sched
    by_cases hm : Choice.cancel ∈ sched
    · have hcn : (finalState cfg numRows runRow transientP sched).canceled
          = true := by
        rw [hfs, drain_canceled]
        exact applyChoices_canceled_mem cfg numRows runRow transientP sched
          initBatch hm
      rw [hcn]
      simp [hm]
    · have hcn : (finalState cfg numRows runRow transientP sched).canceled
          = false := by
        rw [hfs, drain_canceled, applyChoices_canceled_not_mem cfg numRows
          runRow transientP sched initBatch hm]
        rfl
      rw [hcn]
      simp [hm]

/-- Witness for C7 at a concrete schedule that dispatches one row and then
cancels: the trace splits at the cancel event with no dispatch after it,
and the dispatched row still gets a recorded result. -/
theorem cancellation_semantics_witness :
    Event.dispatchEv 1 ∉ ([Event.finishEv 0] : List Event)
    ∧ (∃ r, lookupFinished
        (finalState cfgW 1 runRowW transientW
          [Choice.dispatch, Choice.cancel]).finished 0 = some r) := by
  constructor
  · exact (cancellation_semantics cfgW 1 runRowW transientW
      [Choice.dispatch, Choice.cancel]).1 [Event.dispatchEv 0]
      [Event.finishEv 0] (by decide) 1
  · exact (cancellation_semantics cfgW 1 runRowW transientW
      [Choice.dispatch, Choice.cancel]).2.2.1 0 (by decide)

end PromptflowSpec
